import Mathlib

/-!
Verification of the buffer-pool / extendible-hash-index core:
a shallow embedding of the bucket page, the LRU replacer, the hash-table
directory page and the extendible hash table, with proofs of the spec's
claims about them.

Machine integers are modelled as `Nat` (indices, page ids, depths are all
non-negative and never overflow in these code paths); the caller-supplied
comparator is a three-way `Int`-valued function, exactly as in the source.
-/

set_option maxHeartbeats 1000000

namespace ExtHash

/-- A hash-table bucket page (`HashTableBucketPage`,
src/storage/page/hash_table_bucket_page.cpp): the key/value slot array and the
`occupied`/`readable` bitmaps, modelled as functions from slot index. -/
structure Bucket (K V : Type) where
  keyAt : Nat → K
  valueAt : Nat → V
  readable : Nat → Bool
  occupied : Nat → Bool

section BucketDefs

variable {K V : Type} [DecidableEq V]
variable (sz : Nat) (cmp : K → K → Int)

/-- The comparator equality test the bucket page uses everywhere:
`cmp(KeyAt(i), key) == cmp(key, KeyAt(i))`. -/
def kMatch (a b : K) : Prop := cmp a b = cmp b a

instance (a b : K) : Decidable (kMatch cmp a b) := by
  unfold kMatch
  infer_instance

/-- `RemoveAt(bucket_idx)`: clear the readable bit; `occupied` untouched. -/
def Bucket.removeAt (b : Bucket K V) (i : Nat) : Bucket K V :=
  { b with readable := fun j => if j = i then false else b.readable j }

/-- `SetReadable(bucket_idx)`. -/
def Bucket.setReadable (b : Bucket K V) (i : Nat) : Bucket K V :=
  { b with readable := fun j => if j = i then true else b.readable j }

/-- `SetOccupied(bucket_idx)`. -/
def Bucket.setOccupied (b : Bucket K V) (i : Nat) : Bucket K V :=
  { b with occupied := fun j => if j = i then true else b.occupied j }

/-- `array_[slot_idx] = MappingType(key, value)`. -/
def Bucket.setKV (b : Bucket K V) (i : Nat) (k : K) (v : V) : Bucket K V :=
  { b with
    keyAt := fun j => if j = i then k else b.keyAt j,
    valueAt := fun j => if j = i then v else b.valueAt j }

/-- The scan of `HashTableBucketPage::GetValue`: collect values of readable
slots with matching key, in slot order. -/
def getValueLoop (b : Bucket K V) (k : K) : List Nat → List V
  | [] => []
  | i :: rest =>
    if b.readable i = true ∧ kMatch cmp (b.keyAt i) k then
      b.valueAt i :: getValueLoop b k rest
    else
      getValueLoop b k rest

/-- `HashTableBucketPage::GetValue`: the result list and the "found at least
one" flag (the source's `value_found` is true exactly when something was
appended). -/
def bucketGetValue (b : Bucket K V) (k : K) : List V × Bool :=
  let res := getValueLoop cmp b k (List.range sz)
  (res, !res.isEmpty)

/-- The single pass of `HashTableBucketPage::Insert`: `.error ()` means some
readable slot already holds an equal pair (the early `return false`);
`.ok slot` carries the first non-readable slot index seen, if any
(the source's `slot_available`/`slot_idx`). -/
def insertScan (b : Bucket K V) (k : K) (v : V) :
    List Nat → Option Nat → Except Unit (Option Nat)
  | [], slot => .ok slot
  | i :: rest, slot =>
    if b.readable i = true then
      if kMatch cmp (b.keyAt i) k ∧ v = b.valueAt i then .error ()
      else insertScan b k v rest slot
    else
      insertScan b k v rest (some (slot.getD i))

/-- `HashTableBucketPage::Insert`. -/
def bucketInsert (b : Bucket K V) (k : K) (v : V) : Bucket K V × Bool :=
  match insertScan cmp b k v (List.range sz) none with
  | .error _ => (b, false)
  | .ok none => (b, false)
  | .ok (some i) => (((b.setKV i k v).setReadable i).setOccupied i, true)

/-- `HashTableBucketPage::Remove`: clear the readable bit of the first readable
slot matching both key and value. -/
def bucketRemove (b : Bucket K V) (k : K) (v : V) : Bucket K V × Bool :=
  match (List.range sz).find? (fun i =>
      b.readable i && (decide (kMatch cmp (b.keyAt i) k) && decide (v = b.valueAt i))) with
  | some i => (b.removeAt i, true)
  | none => (b, false)

/-- `NumReadable()`: population count of the readable bitmap. -/
def numReadable (b : Bucket K V) : Nat :=
  ((List.range sz).filter (fun i => b.readable i)).length

/-- `IsFull()`: `NumReadable() >= BUCKET_ARRAY_SIZE`. -/
def bucketIsFull (b : Bucket K V) : Bool :=
  decide (sz ≤ numReadable sz b)

/-- `IsEmpty()`: `NumReadable() <= 0`. -/
def bucketIsEmpty (b : Bucket K V) : Bool :=
  decide (numReadable sz b = 0)

/-- No (key, value) pair occurs readable in two distinct slots of the bucket. -/
def bucketNoDup (b : Bucket K V) : Prop :=
  ∀ s < sz, ∀ t < sz, b.readable s = true → b.readable t = true →
    b.keyAt s = b.keyAt t → b.valueAt s = b.valueAt t → s = t

/-- A zeroed bucket page: `Init` zeroes both bitmaps, and the buffer pool zeroes
a new page's whole buffer, so keys and values are the default (zero) value. -/
def emptyBucket [Inhabited K] [Inhabited V] : Bucket K V :=
  { keyAt := fun _ => default
    valueAt := fun _ => default
    readable := fun _ => false
    occupied := fun _ => false }

end BucketDefs

/-- `LRUReplacer` state (src/buffer/lru_replacer.cpp): the candidate list,
head = most recently unpinned, tail = least recently unpinned.  The source's
`map_` is an iterator cache whose domain always equals the list's members, so
membership tests on the list model it. -/
structure LRU where
  capacity : Nat
  lruList : List Nat

/-- `LRUReplacer::LRUReplacer(num_pages)`. -/
def lruInit (n : Nat) : LRU := { capacity := n, lruList := [] }

/-- `LRUReplacer::Victim`: if nothing is tracked return `none`, else remove and
return the tail (least recently unpinned). -/
def lruVictim (r : LRU) : LRU × Option Nat :=
  match r.lruList.getLast? with
  | none => (r, none)
  | some f => ({ r with lruList := r.lruList.dropLast }, some f)

/-- `LRUReplacer::Pin`: remove the frame if tracked, else no-op. -/
def lruPin (r : LRU) (f : Nat) : LRU :=
  if f ∈ r.lruList then { r with lruList := r.lruList.erase f } else r

/-- `LRUReplacer::Unpin`: no-op if already tracked or at capacity, else insert
at the head. -/
def lruUnpin (r : LRU) (f : Nat) : LRU :=
  if f ∈ r.lruList then r
  else if r.lruList.length = r.capacity then r
  else { r with lruList := f :: r.lruList }

/-- `LRUReplacer::Size`. -/
def lruSize (r : LRU) : Nat := r.lruList.length

/-- The hash-table directory page.  Modelled from the spec: the repository's
`HashTableDirectoryPage` implementation is not under src/ (only its callers
are), so the fields and derived operations follow spec §4.4.  Only the first
`2^global_depth` slots are live. -/
structure Directory where
  globalDepth : Nat
  localDepths : Nat → Nat
  bucketPageIds : Nat → Nat

namespace Directory

/-- `Size() = 1 << global_depth`. -/
def size (d : Directory) : Nat := 2 ^ d.globalDepth

/-- `GetGlobalDepthMask() = (1 << global_depth) - 1`. -/
def globalDepthMask (d : Directory) : Nat := 2 ^ d.globalDepth - 1

/-- `GetBucketPageId(i)`. -/
def getBucketPageId (d : Directory) (i : Nat) : Nat := d.bucketPageIds i

/-- `SetBucketPageId(i, p)`. -/
def setBucketPageId (d : Directory) (i p : Nat) : Directory :=
  { d with bucketPageIds := fun j => if j = i then p else d.bucketPageIds j }

/-- `GetLocalDepth(i)`. -/
def getLocalDepth (d : Directory) (i : Nat) : Nat := d.localDepths i

/-- `IncrLocalDepth(i)`. -/
def incrLocalDepth (d : Directory) (i : Nat) : Directory :=
  { d with localDepths := fun j => if j = i then d.localDepths i + 1 else d.localDepths j }

/-- `DecrLocalDepth(i)`. -/
def decrLocalDepth (d : Directory) (i : Nat) : Directory :=
  { d with localDepths := fun j => if j = i then d.localDepths i - 1 else d.localDepths j }

/-- Modelled from the spec: `GetSplitImageIndex(i) = i XOR (1 << (local_depths[i] - 1))`. -/
def getSplitImageIndex (d : Directory) (i : Nat) : Nat :=
  i ^^^ (1 <<< (d.localDepths i - 1))

/-- Modelled from the spec: `IncrGlobalDepth` copies slot `i` to
`i + 2^global_depth` for every live `i`, then increments the depth. -/
def incrGlobalDepth (d : Directory) : Directory :=
  { globalDepth := d.globalDepth + 1
    localDepths := fun j =>
      if 2 ^ d.globalDepth ≤ j ∧ j < 2 ^ (d.globalDepth + 1) then
        d.localDepths (j - 2 ^ d.globalDepth)
      else d.localDepths j
    bucketPageIds := fun j =>
      if 2 ^ d.globalDepth ≤ j ∧ j < 2 ^ (d.globalDepth + 1) then
        d.bucketPageIds (j - 2 ^ d.globalDepth)
      else d.bucketPageIds j }

/-- `DecrGlobalDepth`: decrement only; upper-half slots become unused. -/
def decrGlobalDepth (d : Directory) : Directory :=
  { d with globalDepth := d.globalDepth - 1 }

/-- Modelled from the spec: `CanShrink()` is true iff every live slot's local
depth is strictly below the global depth. -/
def canShrink (d : Directory) : Bool :=
  (List.range d.size).all fun i => d.localDepths i < d.globalDepth

/-- Modelled from the spec: `CanIncrGlobalDepth()` is folded into the
`MAX_DEPTH` ceiling (spec §9): growth is possible iff `global_depth < MAX_DEPTH`. -/
def canIncrGlobalDepth (maxDepth : Nat) (d : Directory) : Bool :=
  decide (d.globalDepth < maxDepth)

/-- `HashTableDirectoryPage::Init` as performed by the constructor:
depth 0, slot 0 pointing at the initial bucket.  Modelled from the spec
(which leaves the dead slots unspecified; they are given depth 0 and the same
initial bucket id). -/
def dirInit (bucketPid : Nat) : Directory :=
  { globalDepth := 0, localDepths := fun _ => 0, bucketPageIds := fun _ => bucketPid }

end Directory

/-- A buffer-pool interaction, as made by the hash-table operations. -/
inductive BPEvent
  | fetchPage (pid : Nat)
  | newPage (pid : Nat)
  | unpinPage (pid : Nat) (dirty : Bool)
  | deletePage (pid : Nat)
deriving DecidableEq

/-- The extendible hash table's persistent state: the directory page, the
bucket pages (indexed by page id), and the buffer-pool's page-id allocator.
The buffer pool is modelled as the page store itself: the claims under
verification concern the index's functional behaviour and its pin/unpin
discipline, not eviction. -/
structure EHT (K V : Type) where
  dir : Directory
  pages : Nat → Bucket K V
  nextPageId : Nat
  dirPageId : Nat

/-- Result of a mutating table operation: final state, boolean result, and the
trace of buffer-pool calls made. -/
structure OpOut (K V : Type) where
  st : EHT K V
  ok : Bool
  evs : List BPEvent

/-- Result of `GetValue`: flag, result list, buffer-pool trace. -/
structure QueryOut (V : Type) where
  ok : Bool
  res : List V
  evs : List BPEvent

section EHTDefs

variable {K V : Type} [DecidableEq V] [Inhabited K] [Inhabited V]
variable (sz : Nat) (cmp : K → K → Int) (maxDepth : Nat) (hashFn : K → Nat)

/-- `ExtendibleHashTable::Hash`: downcast the 64-bit hash to 32 bits. -/
def ehtHash (k : K) : Nat := hashFn k % 2 ^ 32

/-- `KeyToDirectoryIndex(key, dir) = Hash(key) & GetGlobalDepthMask()`. -/
def keyToDirectoryIndex (k : K) (d : Directory) : Nat :=
  ehtHash hashFn k &&& d.globalDepthMask

/-- `KeyToPageId(key, dir)`. -/
def keyToPageId (k : K) (d : Directory) : Nat :=
  d.getBucketPageId (keyToDirectoryIndex hashFn k d)

/-- Replace one bucket page's contents. -/
def EHT.setPage (st : EHT K V) (pid : Nat) (b : Bucket K V) : EHT K V :=
  { st with pages := fun j => if j = pid then b else st.pages j }

/-- `BufferPoolManager::NewPage` as seen by the table: a fresh, zeroed page
under a monotonically allocated page id. -/
def ehtNewPage (st : EHT K V) : EHT K V × Nat :=
  ({ st with
      pages := fun j => if j = st.nextPageId then emptyBucket else st.pages j
      nextPageId := st.nextPageId + 1 },
    st.nextPageId)

/-- The directory-update loop of `SplitInsert` (lines 187-198): for every
`i < 2^(global_depth - local_depth)` update slot `(i << ld) | low_bits`:
increment its local depth, and point it at the old page when `i` is even,
at the new page when `i` is odd. -/
def splitLoop (ld low oldPid newPid : Nat) : Nat → Directory → Directory
  | 0, d => d
  | n + 1, d =>
    let d1 := splitLoop ld low oldPid newPid n d
    let idx := (n <<< ld) ||| low
    let d2 := d1.incrLocalDepth idx
    if n % 2 = 0 then d2.setBucketPageId idx oldPid else d2.setBucketPageId idx newPid

/-- The redistribution loop of `SplitInsert` (lines 200-209): every slot whose
key now routes to the new page is removed from the old bucket and inserted
into the new one.  The source deliberately does not test `IsReadable` here. -/
def redistLoop (d : Directory) (newPid : Nat) :
    List Nat → Bucket K V → Bucket K V → Bucket K V × Bucket K V
  | [], ob, nb => (ob, nb)
  | i :: rest, ob, nb =>
    if keyToPageId hashFn (ob.keyAt i) d = newPid then
      redistLoop d newPid rest (ob.removeAt i)
        (bucketInsert sz cmp nb (ob.keyAt i) (ob.valueAt i)).1
    else
      redistLoop d newPid rest ob nb

mutual

/-- `ExtendibleHashTable::Insert`: fast path when the routed bucket is not
full, otherwise fall through to `SplitInsert`.  `fuel` bounds the (in C++
unbounded) retry recursion; a run that returns `true` always did so within
its fuel. -/
def ehtInsert : Nat → EHT K V → K → V → OpOut K V
  | 0, st, _, _ => ⟨st, false, []⟩
  | fuel + 1, st, k, v =>
    let d := st.dir
    let bucketId := keyToDirectoryIndex hashFn k d
    let pid := d.getBucketPageId bucketId
    let b := st.pages pid
    if bucketIsFull sz b = false then
      let r := bucketInsert sz cmp b k v
      ⟨st.setPage pid r.1, r.2,
        [.fetchPage st.dirPageId, .fetchPage pid,
          .unpinPage st.dirPageId false, .unpinPage pid true]⟩
    else
      let out := ehtSplitInsert fuel st k v
      ⟨out.st, out.ok,
        [.fetchPage st.dirPageId, .fetchPage pid,
          .unpinPage st.dirPageId false, .unpinPage pid false] ++ out.evs⟩

/-- `ExtendibleHashTable::SplitInsert` (lines 139-216): reject a duplicate
pair; reject when the directory is at capacity; grow the directory when
`ld == gd` (failing if `MAX_DEPTH` forbids growth); run the split loop and
redistribution; retry `Insert`. -/
def ehtSplitInsert : Nat → EHT K V → K → V → OpOut K V
  | 0, st, _, _ => ⟨st, false, []⟩
  | fuel + 1, st, k, v =>
    let d := st.dir
    let bucketId := keyToDirectoryIndex hashFn k d
    let pid := d.getBucketPageId bucketId
    let b := st.pages pid
    if v ∈ (bucketGetValue sz cmp b k).1 then
      ⟨st, false,
        [.fetchPage st.dirPageId, .fetchPage pid,
          .unpinPage st.dirPageId false, .unpinPage pid false]⟩
    else if 2 ^ maxDepth ≤ d.size then
      ⟨st, false,
        [.fetchPage st.dirPageId, .fetchPage pid,
          .unpinPage st.dirPageId false, .unpinPage pid false]⟩
    else if d.getLocalDepth bucketId = d.globalDepth ∧
        Directory.canIncrGlobalDepth maxDepth d = false then
      ⟨st, false,
        [.fetchPage st.dirPageId, .fetchPage pid,
          .unpinPage st.dirPageId false, .unpinPage pid false]⟩
    else
      let d1 := if d.getLocalDepth bucketId = d.globalDepth then d.incrGlobalDepth else d
      if d1.getLocalDepth bucketId < d1.globalDepth then
        let np := ehtNewPage { st with dir := d1 }
        let st1 := np.1
        let newPid := np.2
        let ld := d1.getLocalDepth bucketId
        let gd := d1.globalDepth
        let low := bucketId &&& ((1 <<< ld) - 1)
        let d2 := splitLoop ld low pid newPid (2 ^ (gd - ld)) d1
        let rb := redistLoop sz cmp hashFn d2 newPid (List.range sz)
          (st1.pages pid) (st1.pages newPid)
        let st2 := (({ st1 with dir := d2 }).setPage pid rb.1).setPage newPid rb.2
        let out := ehtInsert fuel st2 k v
        ⟨out.st, out.ok,
          [.fetchPage st.dirPageId, .fetchPage pid, .newPage newPid,
            .unpinPage newPid true, .unpinPage st.dirPageId true, .unpinPage pid true]
            ++ out.evs⟩
      else
        let out := ehtInsert fuel { st with dir := d1 } k v
        ⟨out.st, out.ok,
          [.fetchPage st.dirPageId, .fetchPage pid,
            .unpinPage st.dirPageId true, .unpinPage pid true] ++ out.evs⟩

end

/-- The directory-update loop of `Merge` (lines 297-301): for every
`i < 2^(global_depth - (ld-1))` update slot `(i << (ld-1)) | low_bits`:
decrement its local depth and point it at the surviving bucket. -/
def mergeLoop (ld low survivorPid : Nat) : Nat → Directory → Directory
  | 0, d => d
  | n + 1, d =>
    let d1 := mergeLoop ld low survivorPid n d
    let idx := (n <<< ld) ||| low
    (d1.decrLocalDepth idx).setBucketPageId idx survivorPid

/-- The `while(true)` body of `ExtendibleHashTable::Merge` (lines 262-309),
with `fuel` bounding the iteration count and `dirty` the source's
`dirty_directory` accumulator. -/
def mergeGo (k : K) : Nat → EHT K V → Bool → EHT K V × Bool × List BPEvent
  | 0, st, dirty => (st, dirty, [])
  | n + 1, st, dirty =>
    let d := st.dir
    let bIdx := keyToDirectoryIndex hashFn k d
    let bPid := d.getBucketPageId bIdx
    let bPage := st.pages bPid
    let bLd := d.getLocalDepth bIdx
    let sIdx := d.getSplitImageIndex bIdx
    let sPid := d.getBucketPageId sIdx
    let sPage := st.pages sPid
    let sLd := d.getLocalDepth sIdx
    if (bucketIsEmpty sz bPage = false ∧ bucketIsEmpty sz sPage = false) ∨
        bLd = 0 ∨ sLd = 0 ∨ sLd ≠ bLd then
      (st, dirty, [.fetchPage bPid, .fetchPage sPid, .unpinPage bPid false, .unpinPage sPid false])
    else
      let swap := bucketIsEmpty sz bPage
      let bIdxS := if swap = true then sIdx else bIdx
      let bPidS := if swap = true then sPid else bPid
      let sPidS := if swap = true then bPid else sPid
      let bLdS := if swap = true then sLd else bLd
      let ldm := bLdS - 1
      let low := bIdxS &&& ((1 <<< ldm) - 1)
      let d1 := mergeLoop ldm low bPidS (2 ^ (d.globalDepth - ldm)) d
      let d2 := if d1.canShrink = true then d1.decrGlobalDepth else d1
      let rest := mergeGo k n { st with dir := d2 } true
      (rest.1, rest.2.1,
        [.fetchPage bPid, .fetchPage sPid, .unpinPage bPidS false, .unpinPage sPidS false,
          .deletePage sPidS] ++ rest.2.2)

/-- `ExtendibleHashTable::Merge` (the `value` argument of the source is unused
by the merge logic). -/
def ehtMerge (fuel : Nat) (st : EHT K V) (k : K) : EHT K V × List BPEvent :=
  let r := mergeGo sz hashFn k fuel st false
  (r.1, [BPEvent.fetchPage st.dirPageId] ++ r.2.2 ++ [.unpinPage st.dirPageId r.2.1])

/-- `ExtendibleHashTable::Remove` (lines 221-250): remove from the routed
bucket, then run `Merge` on success. -/
def ehtRemove (fuel : Nat) (st : EHT K V) (k : K) (v : V) : OpOut K V :=
  let d := st.dir
  let bucketId := keyToDirectoryIndex hashFn k d
  let pid := d.getBucketPageId bucketId
  let r := bucketRemove sz cmp (st.pages pid) k v
  if r.2 = false then
    ⟨st.setPage pid r.1, false,
      [.fetchPage st.dirPageId, .fetchPage pid,
        .unpinPage st.dirPageId false, .unpinPage pid true]⟩
  else
    let st1 := st.setPage pid r.1
    let m := ehtMerge sz hashFn fuel st1 k
    ⟨m.1, true,
      [.fetchPage st.dirPageId, .fetchPage pid,
        .unpinPage st.dirPageId true, .unpinPage pid true] ++ m.2⟩

/-- `ExtendibleHashTable::GetValue` (lines 90-106). -/
def ehtGetValue (st : EHT K V) (k : K) : QueryOut V :=
  let pid := keyToPageId hashFn k st.dir
  let r := bucketGetValue sz cmp (st.pages pid) k
  ⟨r.2, r.1,
    [.fetchPage st.dirPageId, .fetchPage pid,
      .unpinPage st.dirPageId false, .unpinPage pid false]⟩

/-- The state right after the `ExtendibleHashTable` constructor: bucket page 0
(initialised empty), directory page 1 pointing at it, next page id 2. -/
def initEHT : EHT K V :=
  { dir := Directory.dirInit 0
    pages := fun _ => emptyBucket
    nextPageId := 2
    dirPageId := 1 }

/-- States reachable from the freshly-constructed table through the public
mutating API (`Insert` and `Remove`; `GetValue` does not change state). -/
inductive Reach : EHT K V → Prop
  | init : Reach initEHT
  | insert (fuel : Nat) (k : K) (v : V) {st : EHT K V} :
      Reach st → Reach (ehtInsert sz cmp maxDepth hashFn fuel st k v).st
  | remove (fuel : Nat) (k : K) (v : V) {st : EHT K V} :
      Reach st → Reach (ehtRemove sz cmp hashFn fuel st k v).st

/-- Invariant I3 / D1, exactly as the spec states it: any slot `j` agreeing
with a live slot `i` on the low `local_depths[i]` bits shares `i`'s bucket
page id and local depth. -/
def dirI3 (d : Directory) : Prop :=
  ∀ i < d.size, ∀ j < d.size,
    j &&& ((1 <<< d.localDepths i) - 1) = i &&& ((1 <<< d.localDepths i) - 1) →
    d.bucketPageIds j = d.bucketPageIds i ∧ d.localDepths j = d.localDepths i

/-- Invariant D2: local depths of live slots are bounded by the global depth. -/
def dirLdLe (d : Directory) : Prop :=
  ∀ i < d.size, d.localDepths i ≤ d.globalDepth

/-- Two live slots holding the same bucket page id belong to the same
local-depth class (the converse of I3). -/
def dirPidInj (d : Directory) : Prop :=
  ∀ i < d.size, ∀ j < d.size, d.bucketPageIds i = d.bucketPageIds j →
    d.localDepths i = d.localDepths j ∧ i % 2 ^ d.localDepths i = j % 2 ^ d.localDepths i

/-- Invariant I4: every readable key of a reachable bucket agrees with every
directory index pointing at that bucket on the low `local_depth` bits. -/
def ehtI4 (st : EHT K V) : Prop :=
  ∀ idx < st.dir.size, ∀ s < sz,
    (st.pages (st.dir.bucketPageIds idx)).readable s = true →
    ehtHash hashFn ((st.pages (st.dir.bucketPageIds idx)).keyAt s) % 2 ^ st.dir.localDepths idx
      = idx % 2 ^ st.dir.localDepths idx

/-- No reachable bucket holds the same (key, value) pair in two distinct
readable slots. -/
def ehtNoDup (st : EHT K V) : Prop :=
  ∀ idx < st.dir.size, ∀ s < sz, ∀ t < sz,
    (st.pages (st.dir.bucketPageIds idx)).readable s = true →
    (st.pages (st.dir.bucketPageIds idx)).readable t = true →
    (st.pages (st.dir.bucketPageIds idx)).keyAt s = (st.pages (st.dir.bucketPageIds idx)).keyAt t →
    (st.pages (st.dir.bucketPageIds idx)).valueAt s = (st.pages (st.dir.bucketPageIds idx)).valueAt t →
    s = t

/-- Live bucket page ids are below the allocator's next page id. -/
def ehtFresh (st : EHT K V) : Prop :=
  ∀ i < st.dir.size, st.dir.bucketPageIds i < st.nextPageId

/-- The master invariant carried across operations. -/
structure Inv (st : EHT K V) : Prop where
  gdLe : st.dir.globalDepth ≤ maxDepth
  ldLe : dirLdLe st.dir
  i3 : dirI3 st.dir
  pidInj : dirPidInj st.dir
  fresh : ehtFresh st
  i4 : ehtI4 sz hashFn st
  noDup : ehtNoDup sz st

/-- The pair (k, v) is readable in some bucket reachable from a live
directory slot. -/
def containsAnywhere (st : EHT K V) (k : K) (v : V) : Prop :=
  ∃ idx, idx < st.dir.size ∧ ∃ s, s < sz ∧
    (st.pages (st.dir.bucketPageIds idx)).readable s = true ∧
    (st.pages (st.dir.bucketPageIds idx)).keyAt s = k ∧
    (st.pages (st.dir.bucketPageIds idx)).valueAt s = v

end EHTDefs

/-- Is this event an unpin of page `pid`? -/
def isUnpinOf (pid : Nat) : BPEvent → Bool
  | .unpinPage p _ => decide (p = pid)
  | _ => false

/-- Is this event an acquisition (fetch or new) of page `pid`? -/
def isFetchOf (pid : Nat) : BPEvent → Bool
  | .fetchPage p => decide (p = pid)
  | .newPage p => decide (p = pid)
  | _ => false

/-- Number of `UnpinPage` calls an operation made on page `pid`. -/
def countUnpins (pid : Nat) (evs : List BPEvent) : Nat :=
  (evs.filter (isUnpinOf pid)).length

/-- Number of pages the operation obtained from the pool under id `pid`. -/
def countFetches (pid : Nat) (evs : List BPEvent) : Nat :=
  (evs.filter (isFetchOf pid)).length

/-- Every acquired page is unpinned exactly once. -/
def pinBalanced (evs : List BPEvent) : Prop :=
  ∀ pid, countUnpins pid evs = countFetches pid evs

section PinDefs

variable {K V : Type}

/-- Did the operation taking `st` to `st1` mutate the buffer of page `pid`
(the directory page's buffer being the directory itself)? -/
def mutatesPage (st st1 : EHT K V) (pid : Nat) : Prop :=
  if pid = st.dirPageId then st.dir ≠ st1.dir else st.pages pid ≠ st1.pages pid

/-- The pin-discipline dirty condition of spec §5, as claimed: every unpin
passes `is_dirty = true` iff the operation mutated that page's buffer. -/
def dirtyIffMutated (st st1 : EHT K V) (evs : List BPEvent) : Prop :=
  ∀ pid d, BPEvent.unpinPage pid d ∈ evs → (d = true ↔ mutatesPage st st1 pid)

end PinDefs

/-- The three-way integer comparator on naturals, used to instantiate the
generic theorems at concrete inputs. -/
def natCmp (a b : Nat) : Int :=
  if a < b then -1 else if b < a then 1 else 0

/-- A concrete empty two-slot bucket over naturals. -/
def wbEmpty : Bucket Nat Nat :=
  ⟨fun _ => 0, fun _ => 0, fun _ => false, fun _ => false⟩

/-- A concrete two-slot bucket holding (5, 7) in slot 0. -/
def wbOne : Bucket Nat Nat :=
  ⟨fun _ => 5, fun _ => 7, fun i => decide (i = 0), fun i => decide (i = 0)⟩

/-- A concrete two-slot bucket that is full: (1, 10) in slot 0, (2, 20) in
slot 1. -/
def wbFull : Bucket Nat Nat :=
  ⟨fun i => i + 1, fun i => 10 * (i + 1), fun i => decide (i < 2), fun i => decide (i < 2)⟩

/-! ## General lemmas -/

theorem natCmp_lawful (a b : Nat) : natCmp a b = natCmp b a ↔ a = b := by
  unfold natCmp
  rcases Nat.lt_trichotomy a b with h | rfl | h
  · rw [if_pos h, if_neg (Nat.lt_asymm h), if_pos h]
    constructor <;> intro hh <;> omega
  · simp
  · rw [if_neg (Nat.lt_asymm h), if_pos h, if_pos h]
    constructor <;> intro hh <;> omega

theorem kMatch_lawful {K : Type} {cmp : K → K → Int}
    (hcmp : ∀ a b : K, cmp a b = cmp b a ↔ a = b) (a b : K) :
    kMatch cmp a b ↔ a = b := hcmp a b

theorem kMatch_refl {K : Type} (cmp : K → K → Int) (a : K) : kMatch cmp a a := rfl

theorem range_find?_eq_none {n : Nat} {p : Nat → Bool} :
    (List.range n).find? p = none ↔ ∀ i < n, p i = false := by
  rw [List.find?_eq_none]
  constructor
  · intro h i hi
    by_contra hpi
    exact h i (List.mem_range.mpr hi) (by simpa using hpi)
  · intro h i hi hpi
    rw [h i (List.mem_range.mp hi)] at hpi
    exact Bool.false_ne_true hpi

theorem range_find?_eq_some {n i : Nat} {p : Nat → Bool} :
    (List.range n).find? p = some i ↔ i < n ∧ p i = true ∧ ∀ j < i, p j = false := by
  induction n generalizing i with
  | zero =>
    simp only [List.range_zero, List.find?_nil]
    constructor
    · intro h
      exact Option.noConfusion h
    · rintro ⟨hi, -⟩
      omega
  | succ n ih =>
    rw [List.range_succ, List.find?_append]
    rcases h : (List.range n).find? p with _ | j
    · have hnone := range_find?_eq_none.mp h
      simp only [Option.none_or]
      rcases hp : p n with _ | _
      · rw [List.find?_cons_of_neg _ (by simp [hp]), List.find?_nil]
        constructor
        · intro hfind
          exact Option.noConfusion hfind
        · rintro ⟨hi, hpi, -⟩
          rcases Nat.lt_succ_iff_lt_or_eq.mp hi with hlt | rfl
          · rw [hnone i hlt] at hpi
            exact Bool.noConfusion hpi
          · rw [hp] at hpi
            exact Bool.noConfusion hpi
      · rw [List.find?_cons_of_pos _ (by simp [hp])]
        constructor
        · intro hfind
          obtain rfl : n = i := Option.some.inj hfind
          exact ⟨Nat.lt_succ_self n, hp, fun j hj => hnone j hj⟩
        · rintro ⟨hi, hpi, hmin⟩
          rcases Nat.lt_succ_iff_lt_or_eq.mp hi with hlt | rfl
          · rw [hnone i hlt] at hpi
            exact Bool.noConfusion hpi
          · rfl
    · have hj := ih.mp h
      rw [show (some j).or (List.find? p [n]) = some j from rfl]
      constructor
      · intro hfind
        obtain rfl : j = i := Option.some.inj hfind
        exact ⟨by omega, hj.2.1, hj.2.2⟩
      · rintro ⟨hi, hp, hmin⟩
        have hij : i = j := by
          rcases Nat.lt_trichotomy i j with hlt | heq | hgt
          · have hc := hj.2.2 i hlt
            rw [hc] at hp
            exact Bool.noConfusion hp
          · exact heq
          · have hc := hmin j hgt
            rw [hj.2.1] at hc
            exact Bool.noConfusion hc
        rw [hij]

/-! ## Bucket-page lemmas -/

section BucketLemmas

variable {K V : Type} [DecidableEq V]
variable {sz : Nat} {cmp : K → K → Int}

theorem mem_getValueLoop {b : Bucket K V} {k : K} {v : V} {l : List Nat} :
    v ∈ getValueLoop cmp b k l ↔
      ∃ i ∈ l, b.readable i = true ∧ kMatch cmp (b.keyAt i) k ∧ b.valueAt i = v := by
  induction l with
  | nil => simp [getValueLoop]
  | cons i rest ih =>
    by_cases h : b.readable i = true ∧ kMatch cmp (b.keyAt i) k
    · simp only [getValueLoop, if_pos h, List.mem_cons, ih]
      constructor
      · rintro (rfl | ⟨j, hj, hrest⟩)
        · exact ⟨i, Or.inl rfl, h.1, h.2, rfl⟩
        · exact ⟨j, Or.inr hj, hrest⟩
      · rintro ⟨j, (rfl | hj), hr, hm, hv⟩
        · exact Or.inl hv.symm
        · exact Or.inr ⟨j, hj, hr, hm, hv⟩
    · simp only [getValueLoop, if_neg h, ih]
      constructor
      · rintro ⟨j, hj, hrest⟩
        exact ⟨j, List.mem_cons_of_mem i hj, hrest⟩
      · rintro ⟨j, hj, hr, hm, hv⟩
        rcases List.mem_cons.mp hj with rfl | hj'
        · exact absurd ⟨hr, hm⟩ h
        · exact ⟨j, hj', hr, hm, hv⟩

theorem mem_bucketGetValue {b : Bucket K V} {k : K} {v : V} :
    v ∈ (bucketGetValue sz cmp b k).1 ↔
      ∃ i < sz, b.readable i = true ∧ kMatch cmp (b.keyAt i) k ∧ b.valueAt i = v := by
  unfold bucketGetValue
  simp only [mem_getValueLoop, List.mem_range]

theorem bucketGetValue_ok {b : Bucket K V} {k : K} :
    (bucketGetValue sz cmp b k).2 = true ↔ (bucketGetValue sz cmp b k).1 ≠ [] := by
  unfold bucketGetValue
  simp [List.isEmpty_iff]

/-- An element of the result list exists as soon as some readable slot
matches, so the flag is then true. -/
theorem bucketGetValue_flag_of_mem {b : Bucket K V} {k : K} {v : V}
    (h : v ∈ (bucketGetValue sz cmp b k).1) : (bucketGetValue sz cmp b k).2 = true := by
  rw [bucketGetValue_ok]
  intro hnil
  rw [hnil] at h
  exact List.not_mem_nil v h

theorem insertScan_eq_error {b : Bucket K V} {k : K} {v : V} {l : List Nat} {slot : Option Nat} :
    insertScan cmp b k v l slot = .error () ↔
      ∃ i ∈ l, b.readable i = true ∧ kMatch cmp (b.keyAt i) k ∧ v = b.valueAt i := by
  induction l generalizing slot with
  | nil => simp [insertScan]
  | cons i rest ih =>
    by_cases hr : b.readable i = true
    · by_cases hm : kMatch cmp (b.keyAt i) k ∧ v = b.valueAt i
      · rw [insertScan, if_pos hr, if_pos hm]
        exact ⟨fun _ => ⟨i, List.mem_cons_self i rest, hr, hm.1, hm.2⟩, fun _ => rfl⟩
      · simp only [insertScan, if_pos hr, if_neg hm, ih]
        constructor
        · rintro ⟨j, hj, hrest⟩
          exact ⟨j, List.mem_cons_of_mem i hj, hrest⟩
        · rintro ⟨j, hj, hjr, hjm, hjv⟩
          rcases List.mem_cons.mp hj with rfl | hj'
          · exact absurd ⟨hjm, hjv⟩ hm
          · exact ⟨j, hj', hjr, hjm, hjv⟩
    · simp only [insertScan, if_neg hr, ih]
      constructor
      · rintro ⟨j, hj, hrest⟩
        exact ⟨j, List.mem_cons_of_mem i hj, hrest⟩
      · rintro ⟨j, hj, hjr, hjm, hjv⟩
        rcases List.mem_cons.mp hj with rfl | hj'
        · exact absurd hjr hr
        · exact ⟨j, hj', hjr, hjm, hjv⟩

theorem insertScan_eq_ok {b : Bucket K V} {k : K} {v : V} {l : List Nat} {slot : Option Nat}
    (hnodup : ¬ ∃ i ∈ l, b.readable i = true ∧ kMatch cmp (b.keyAt i) k ∧ v = b.valueAt i) :
    insertScan cmp b k v l slot =
      .ok (match slot with
        | some j => some j
        | none => l.find? fun i => !b.readable i) := by
  induction l generalizing slot with
  | nil => cases slot <;> simp [insertScan]
  | cons i rest ih =>
    have hnr : ¬ ∃ j ∈ rest, b.readable j = true ∧ kMatch cmp (b.keyAt j) k ∧ v = b.valueAt j := by
      rintro ⟨j, hj, hrest⟩
      exact hnodup ⟨j, List.mem_cons_of_mem i hj, hrest⟩
    by_cases hr : b.readable i = true
    · have hm : ¬ (kMatch cmp (b.keyAt i) k ∧ v = b.valueAt i) := by
        intro hm
        exact hnodup ⟨i, List.mem_cons_self i rest, hr, hm.1, hm.2⟩
      rw [insertScan, if_pos hr, if_neg hm, ih hnr]
      cases slot with
      | some j => rfl
      | none => rw [List.find?_cons_of_neg _ (by simp [hr])]
    · have hrf : b.readable i = false := by simpa using hr
      rw [insertScan, if_neg hr]
      cases slot with
      | some j =>
        rw [ih hnr]
        rfl
      | none =>
        rw [show some (Option.getD none i) = some i from rfl, ih hnr,
          List.find?_cons_of_pos _ (by simp [hrf])]

/-- The duplicate case of `Insert`: some readable slot holds an equal pair. -/
theorem bucketInsert_dup {b : Bucket K V} {k : K} {v : V}
    (h : ∃ i < sz, b.readable i = true ∧ kMatch cmp (b.keyAt i) k ∧ v = b.valueAt i) :
    bucketInsert sz cmp b k v = (b, false) := by
  unfold bucketInsert
  have : insertScan cmp b k v (List.range sz) none = .error () := by
    rw [insertScan_eq_error]
    rcases h with ⟨i, hi, hrest⟩
    exact ⟨i, List.mem_range.mpr hi, hrest⟩
  rw [this]

/-- The full case of `Insert`: no duplicate, every slot readable. -/
theorem bucketInsert_full {b : Bucket K V} {k : K} {v : V}
    (hnodup : ¬ ∃ i < sz, b.readable i = true ∧ kMatch cmp (b.keyAt i) k ∧ v = b.valueAt i)
    (hfull : ∀ i < sz, b.readable i = true) :
    bucketInsert sz cmp b k v = (b, false) := by
  unfold bucketInsert
  rw [insertScan_eq_ok (by
    rintro ⟨i, hi, hrest⟩
    exact hnodup ⟨i, List.mem_range.mp hi, hrest⟩)]
  rw [show (List.range sz).find? (fun i => !b.readable i) = none from
    range_find?_eq_none.mpr (by intro i hi; simp [hfull i hi])]

/-- The success case of `Insert`: writes the pair into the first non-readable
slot and sets its bits. -/
theorem bucketInsert_free {b : Bucket K V} {k : K} {v : V} {i : Nat}
    (hnodup : ¬ ∃ j < sz, b.readable j = true ∧ kMatch cmp (b.keyAt j) k ∧ v = b.valueAt j)
    (hi : i < sz) (hfree : b.readable i = false) (hfirst : ∀ j < i, b.readable j = true) :
    bucketInsert sz cmp b k v = (((b.setKV i k v).setReadable i).setOccupied i, true) := by
  unfold bucketInsert
  rw [insertScan_eq_ok (by
    rintro ⟨j, hj, hrest⟩
    exact hnodup ⟨j, List.mem_range.mp hj, hrest⟩)]
  rw [show (List.range sz).find? (fun j => !b.readable j) = some i from
    range_find?_eq_some.mpr ⟨hi, by simp [hfree], fun j hj => by simp [hfirst j hj]⟩]

theorem bucketInsert_false_eq {b : Bucket K V} {k : K} {v : V}
    (h : (bucketInsert sz cmp b k v).2 = false) : (bucketInsert sz cmp b k v).1 = b := by
  unfold bucketInsert at h ⊢
  rcases hscan : insertScan cmp b k v (List.range sz) none with _ | slot
  · rfl
  · rcases slot with _ | i
    · rfl
    · rw [hscan] at h
      simp at h

theorem bucketRemove_none {b : Bucket K V} {k : K} {v : V}
    (h : ∀ i < sz, ¬ (b.readable i = true ∧ kMatch cmp (b.keyAt i) k ∧ v = b.valueAt i)) :
    bucketRemove sz cmp b k v = (b, false) := by
  unfold bucketRemove
  rw [range_find?_eq_none.mpr ?_]
  intro i hi
  by_cases hr : b.readable i = true
  · by_cases hm : kMatch cmp (b.keyAt i) k
    · by_cases hv : v = b.valueAt i
      · exact absurd ⟨hr, hm, hv⟩ (h i hi)
      · simp [hr, hm, hv]
    · simp [hr, hm]
  · simp [hr]

theorem bucketRemove_first {b : Bucket K V} {k : K} {v : V} {i : Nat}
    (hi : i < sz) (hr : b.readable i = true) (hm : kMatch cmp (b.keyAt i) k)
    (hv : v = b.valueAt i)
    (hfirst : ∀ j < i, ¬ (b.readable j = true ∧ kMatch cmp (b.keyAt j) k ∧ v = b.valueAt j)) :
    bucketRemove sz cmp b k v = (b.removeAt i, true) := by
  unfold bucketRemove
  rw [show (List.range sz).find?
      (fun j => b.readable j && (decide (kMatch cmp (b.keyAt j) k) && decide (v = b.valueAt j)))
      = some i from range_find?_eq_some.mpr ⟨hi, by simp [hr, hm, hv], ?_⟩]
  intro j hj
  by_cases hrj : b.readable j = true
  · by_cases hmj : kMatch cmp (b.keyAt j) k
    · by_cases hvj : v = b.valueAt j
      · exact absurd ⟨hrj, hmj, hvj⟩ (hfirst j hj)
      · simp [hrj, hmj, hvj]
    · simp [hrj, hmj]
  · simp [hrj]

theorem bucketRemove_occupied {b : Bucket K V} {k : K} {v : V} :
    (bucketRemove sz cmp b k v).1.occupied = b.occupied := by
  unfold bucketRemove
  rcases h : (List.range sz).find?
      (fun j => b.readable j && (decide (kMatch cmp (b.keyAt j) k) && decide (v = b.valueAt j)))
      with _ | i <;> rfl

theorem bucketRemove_false_eq {b : Bucket K V} {k : K} {v : V}
    (h : (bucketRemove sz cmp b k v).2 = false) : (bucketRemove sz cmp b k v).1 = b := by
  unfold bucketRemove at h ⊢
  rcases hf : (List.range sz).find?
      (fun j => b.readable j && (decide (kMatch cmp (b.keyAt j) k) && decide (v = b.valueAt j)))
      with _ | i
  · rfl
  · rw [hf] at h
    simp at h

theorem bucketInsert_true_parts {b : Bucket K V} {k : K} {v : V}
    (h : (bucketInsert sz cmp b k v).2 = true) :
    ∃ i < sz, b.readable i = false ∧
      (∀ j, (bucketInsert sz cmp b k v).1.keyAt j = if j = i then k else b.keyAt j) ∧
      (∀ j, (bucketInsert sz cmp b k v).1.valueAt j = if j = i then v else b.valueAt j) ∧
      (∀ j, (bucketInsert sz cmp b k v).1.readable j = if j = i then true else b.readable j) ∧
      (∀ j, (bucketInsert sz cmp b k v).1.occupied j = if j = i then true else b.occupied j) ∧
      ¬ ∃ t < sz, b.readable t = true ∧ kMatch cmp (b.keyAt t) k ∧ v = b.valueAt t := by
  unfold bucketInsert at h ⊢
  rcases hscan : insertScan cmp b k v (List.range sz) none with u | slot
  · rw [hscan] at h
    simp at h
  · have hnodup : ¬ ∃ t ∈ List.range sz,
        b.readable t = true ∧ kMatch cmp (b.keyAt t) k ∧ v = b.valueAt t := by
      intro hdup
      rw [insertScan_eq_error.mpr hdup] at hscan
      exact Except.noConfusion hscan
    rcases slot with _ | i
    · rw [hscan] at h
      simp at h
    · rw [insertScan_eq_ok hnodup] at hscan
      have hfound : (List.range sz).find? (fun j => !b.readable j) = some i :=
        Except.ok.inj hscan
      have hchar := range_find?_eq_some.mp hfound
      refine ⟨i, hchar.1, by simpa using hchar.2.1, ?_, ?_, ?_, ?_, ?_⟩
      · intro j
        simp [Bucket.setKV, Bucket.setReadable, Bucket.setOccupied]
      · intro j
        simp [Bucket.setKV, Bucket.setReadable, Bucket.setOccupied]
      · intro j
        simp [Bucket.setKV, Bucket.setReadable, Bucket.setOccupied]
      · intro j
        simp [Bucket.setKV, Bucket.setReadable, Bucket.setOccupied]
      · rintro ⟨t, ht, hrest⟩
        exact hnodup ⟨t, List.mem_range.mpr ht, hrest⟩

theorem bucketRemove_true_parts {b : Bucket K V} {k : K} {v : V}
    (h : (bucketRemove sz cmp b k v).2 = true) :
    ∃ i < sz, b.readable i = true ∧ kMatch cmp (b.keyAt i) k ∧ v = b.valueAt i ∧
      (bucketRemove sz cmp b k v).1.keyAt = b.keyAt ∧
      (bucketRemove sz cmp b k v).1.valueAt = b.valueAt ∧
      (bucketRemove sz cmp b k v).1.occupied = b.occupied ∧
      (∀ j, (bucketRemove sz cmp b k v).1.readable j = if j = i then false else b.readable j) := by
  unfold bucketRemove at h ⊢
  rcases hf : (List.range sz).find? (fun j =>
      b.readable j && (decide (kMatch cmp (b.keyAt j) k) && decide (v = b.valueAt j)))
      with _ | i
  · rw [hf] at h
    simp at h
  · have hchar := range_find?_eq_some.mp hf
    have hp := hchar.2.1
    simp only [Bool.and_eq_true, decide_eq_true_eq] at hp
    refine ⟨i, hchar.1, hp.1, hp.2.1, hp.2.2, rfl, rfl, rfl, ?_⟩
    intro j
    simp [Bucket.removeAt]

theorem bucketIsEmpty_iff {b : Bucket K V} :
    bucketIsEmpty sz b = true ↔ ∀ i < sz, b.readable i = false := by
  unfold bucketIsEmpty numReadable
  rw [decide_eq_true_iff, List.length_eq_zero]
  constructor
  · intro hnil i hi
    by_contra hr
    have hmem : i ∈ (List.range sz).filter (fun i => b.readable i) := by
      rw [List.mem_filter]
      exact ⟨List.mem_range.mpr hi, by simpa using hr⟩
    rw [hnil] at hmem
    exact List.not_mem_nil _ hmem
  · intro hall
    rw [List.filter_eq_nil]
    intro a ha
    simp [hall a (List.mem_range.mp ha)]

theorem bucketInsert_preserves_noDup {b : Bucket K V} {k : K} {v : V}
    (hnd : bucketNoDup sz b) : bucketNoDup sz (bucketInsert sz cmp b k v).1 := by
  rcases hres : (bucketInsert sz cmp b k v).2 with _ | _
  · rw [bucketInsert_false_eq hres]
    exact hnd
  · obtain ⟨i, hi, hfree, hkey, hval, hread, hocc, hnodup⟩ := bucketInsert_true_parts hres
    intro s hs t ht hrs hrt hks hvs
    rw [hread s] at hrs
    rw [hread t] at hrt
    rw [hkey s, hkey t] at hks
    rw [hval s, hval t] at hvs
    by_cases hsi : s = i <;> by_cases hti : t = i
    · rw [hsi, hti]
    · rw [if_pos hsi] at hks hvs
      rw [if_neg hti] at hks hvs hrt
      exact absurd ⟨t, ht, hrt, by rw [← hks]; exact kMatch_refl cmp k, by rw [hvs]⟩ hnodup
    · rw [if_pos hti] at hks hvs
      rw [if_neg hsi] at hks hvs hrs
      exact absurd ⟨s, hs, hrs, by rw [hks]; exact kMatch_refl cmp k, by rw [← hvs]⟩ hnodup
    · rw [if_neg hsi] at hks hvs hrs
      rw [if_neg hti] at hks hvs hrt
      exact hnd s hs t ht hrs hrt hks hvs

theorem bucketInsert_pairs {b : Bucket K V} {k : K} {v : V} {s : Nat}
    (hr : (bucketInsert sz cmp b k v).1.readable s = true) :
    ((bucketInsert sz cmp b k v).1.keyAt s = k ∧ (bucketInsert sz cmp b k v).1.valueAt s = v) ∨
    (b.readable s = true ∧ (bucketInsert sz cmp b k v).1.keyAt s = b.keyAt s ∧
      (bucketInsert sz cmp b k v).1.valueAt s = b.valueAt s) := by
  rcases hres : (bucketInsert sz cmp b k v).2 with _ | _
  · rw [bucketInsert_false_eq hres] at hr ⊢
    exact Or.inr ⟨hr, rfl, rfl⟩
  · obtain ⟨i, hi, hfree, hkey, hval, hread, hocc, hnodup⟩ := bucketInsert_true_parts hres
    by_cases hsi : s = i
    · left
      rw [hkey s, hval s, if_pos hsi, if_pos hsi]
      exact ⟨rfl, rfl⟩
    · right
      rw [hread s, if_neg hsi] at hr
      rw [hkey s, hval s, if_neg hsi, if_neg hsi]
      exact ⟨hr, rfl, rfl⟩

theorem bucketRemove_readable_subset {b : Bucket K V} {k : K} {v : V} {s : Nat}
    (hr : (bucketRemove sz cmp b k v).1.readable s = true) :
    b.readable s = true ∧ (bucketRemove sz cmp b k v).1.keyAt s = b.keyAt s ∧
      (bucketRemove sz cmp b k v).1.valueAt s = b.valueAt s := by
  rcases hres : (bucketRemove sz cmp b k v).2 with _ | _
  · rw [bucketRemove_false_eq hres] at hr ⊢
    exact ⟨hr, rfl, rfl⟩
  · obtain ⟨i, hi, hri, hmi, hvi, hkey, hval, hocc, hread⟩ := bucketRemove_true_parts hres
    rw [hread s] at hr
    by_cases hsi : s = i
    · rw [if_pos hsi] at hr
      exact Bool.noConfusion hr
    · rw [if_neg hsi] at hr
      rw [hkey, hval]
      exact ⟨hr, rfl, rfl⟩

end BucketLemmas

/-! ## Bit-manipulation helpers -/

theorem mask_eq_mod (x n : Nat) : x &&& (2 ^ n - 1) = x % 2 ^ n :=
  Nat.and_pow_two_sub_one_eq_mod x n

theorem one_shiftLeft_eq (n : Nat) : (1 <<< n) = 2 ^ n := by
  rw [Nat.shiftLeft_eq, Nat.one_mul]

theorem idx_eq {low ld : Nat} (n : Nat) (hlow : low < 2 ^ ld) :
    (n <<< ld) ||| low = n * 2 ^ ld + low := by
  rw [Nat.shiftLeft_eq, Nat.mul_comm]
  exact (Nat.mul_add_lt_is_or hlow n).symm

theorem idx_mod {low ld : Nat} (n : Nat) (hlow : low < 2 ^ ld) :
    (n * 2 ^ ld + low) % 2 ^ ld = low := by
  rw [Nat.mul_comm, Nat.mul_add_mod, Nat.mod_eq_of_lt hlow]

theorem idx_div {low ld : Nat} (n : Nat) (hlow : low < 2 ^ ld) :
    (n * 2 ^ ld + low) / 2 ^ ld = n := by
  rw [Nat.mul_comm, Nat.mul_add_div (Nat.two_pow_pos ld), Nat.div_eq_of_lt hlow, Nat.add_zero]

theorem idx_inj {low ld : Nat} {j n : Nat} (hlow : low < 2 ^ ld)
    (hm : j % 2 ^ ld = low) (hd : j / 2 ^ ld = n) : j = n * 2 ^ ld + low := by
  have h := Nat.div_add_mod j (2 ^ ld)
  rw [hd, hm] at h
  rw [← h, Nat.mul_comm]

theorem family_iff {j gd ld low : Nat} (hle : ld ≤ gd) :
    (j % 2 ^ ld = low ∧ j / 2 ^ ld < 2 ^ (gd - ld)) ↔ (j < 2 ^ gd ∧ j % 2 ^ ld = low) := by
  have hpow : (2 : Nat) ^ gd = 2 ^ (gd - ld) * 2 ^ ld := by
    rw [← Nat.pow_add]
    congr 1
    omega
  constructor
  · rintro ⟨hm, hd⟩
    refine ⟨?_, hm⟩
    rw [hpow]
    exact (Nat.div_lt_iff_lt_mul (Nat.two_pow_pos ld)).mp hd
  · rintro ⟨hj, hm⟩
    refine ⟨hm, (Nat.div_lt_iff_lt_mul (Nat.two_pow_pos ld)).mpr ?_⟩
    rw [← hpow]
    exact hj

theorem testBit_iff_div_odd (j n : Nat) : j.testBit n = true ↔ (j / 2 ^ n) % 2 = 1 := by
  rw [Nat.testBit_to_div_mod]
  exact decide_eq_true_iff

theorem mod_mod_pow_le {m n : Nat} (h : m ≤ n) (x : Nat) : x % 2 ^ n % 2 ^ m = x % 2 ^ m :=
  Nat.mod_mod_of_dvd x (Nat.pow_dvd_pow 2 h)

theorem mod_two_pow_succ (a n : Nat) :
    a % 2 ^ (n + 1) = 2 ^ n * (a / 2 ^ n % 2) + a % 2 ^ n := by
  have h1 : (2 : Nat) ^ (n + 1) = 2 ^ n * 2 := pow_succ 2 n
  rw [h1]
  conv_lhs => rw [← Nat.div_add_mod (a % (2 ^ n * 2)) (2 ^ n)]
  rw [Nat.mod_mul_right_div_self, Nat.mod_mod_of_dvd _ (Dvd.intro 2 rfl)]

theorem mod_pow_succ_combine {a b n : Nat} (hm : a % 2 ^ n = b % 2 ^ n)
    (hb : a / 2 ^ n % 2 = b / 2 ^ n % 2) : a % 2 ^ (n + 1) = b % 2 ^ (n + 1) := by
  rw [mod_two_pow_succ a n, mod_two_pow_succ b n, hm, hb]

theorem mod_of_mod_pow_succ {a b n : Nat} (h : a % 2 ^ (n + 1) = b % 2 ^ (n + 1)) :
    a % 2 ^ n = b % 2 ^ n := by
  have ha := mod_mod_pow_le (Nat.le_succ n) a
  have hb := mod_mod_pow_le (Nat.le_succ n) b
  rw [← ha, ← hb, h]

theorem bit_of_mod_pow_succ {a b n : Nat} (h : a % 2 ^ (n + 1) = b % 2 ^ (n + 1)) :
    a / 2 ^ n % 2 = b / 2 ^ n % 2 := by
  rw [← Nat.mod_mul_right_div_self a (2 ^ n) 2, ← Nat.mod_mul_right_div_self b (2 ^ n) 2,
    show (2 : Nat) ^ n * 2 = 2 ^ (n + 1) from (pow_succ 2 n).symm, h]

/-! ## Directory lemmas -/

section DirectoryLemmas

theorem splitLoop_globalDepth (ld low oldPid newPid : Nat) (N : Nat) (d : Directory) :
    (splitLoop ld low oldPid newPid N d).globalDepth = d.globalDepth := by
  induction N with
  | zero => rfl
  | succ n ih =>
    rw [splitLoop]
    by_cases hc : n % 2 = 0 <;>
      simp [hc, Directory.setBucketPageId, Directory.incrLocalDepth, ih]

theorem splitLoop_localDepths (ld low oldPid newPid : Nat) {N : Nat}
    (hlow : low < 2 ^ ld) (d : Directory) (j : Nat) :
    (splitLoop ld low oldPid newPid N d).localDepths j =
      if j % 2 ^ ld = low ∧ j / 2 ^ ld < N then d.localDepths j + 1
      else d.localDepths j := by
  induction N generalizing j with
  | zero => simp [splitLoop]
  | succ n ih =>
    rw [splitLoop]
    have hidx : (n <<< ld) ||| low = n * 2 ^ ld + low := idx_eq n hlow
    have hld : ∀ (dd : Directory) (p : Nat),
        ((if n % 2 = 0 then (dd.incrLocalDepth ((n <<< ld) ||| low)).setBucketPageId
            ((n <<< ld) ||| low) oldPid
          else (dd.incrLocalDepth ((n <<< ld) ||| low)).setBucketPageId
            ((n <<< ld) ||| low) newPid)).localDepths p
        = (dd.incrLocalDepth ((n <<< ld) ||| low)).localDepths p := by
      intro dd p
      by_cases hc : n % 2 = 0 <;> simp [hc, Directory.setBucketPageId]
    rw [hld]
    simp only [Directory.incrLocalDepth, hidx]
    by_cases hj : j = n * 2 ^ ld + low
    · subst hj
      rw [if_pos rfl,
        ih (n * 2 ^ ld + low),
        if_neg (by
          rw [idx_div n hlow]
          omega),
        if_pos ⟨idx_mod n hlow, by rw [idx_div n hlow]; omega⟩]
    · rw [if_neg hj, ih j]
      by_cases hfam : j % 2 ^ ld = low ∧ j / 2 ^ ld < n
      · rw [if_pos hfam, if_pos ⟨hfam.1, by omega⟩]
      · rw [if_neg hfam, if_neg (by
          rintro ⟨hm, hd⟩
          rcases Nat.lt_succ_iff_lt_or_eq.mp hd with hlt | heq
          · exact hfam ⟨hm, hlt⟩
          · exact hj (idx_inj hlow hm heq))]

theorem splitLoop_bucketPageIds (ld low oldPid newPid : Nat) {N : Nat}
    (hlow : low < 2 ^ ld) (d : Directory) (j : Nat) :
    (splitLoop ld low oldPid newPid N d).bucketPageIds j =
      if j % 2 ^ ld = low ∧ j / 2 ^ ld < N then
        (if (j / 2 ^ ld) % 2 = 0 then oldPid else newPid)
      else d.bucketPageIds j := by
  induction N generalizing j with
  | zero => simp [splitLoop]
  | succ n ih =>
    rw [splitLoop]
    have hidx : (n <<< ld) ||| low = n * 2 ^ ld + low := idx_eq n hlow
    by_cases hj : j = n * 2 ^ ld + low
    · subst hj
      have hmod : (n * 2 ^ ld + low) % 2 ^ ld = low := idx_mod n hlow
      have hdiv : (n * 2 ^ ld + low) / 2 ^ ld = n := idx_div n hlow
      by_cases hc : n % 2 = 0
      · simp [hidx, hc, Directory.setBucketPageId, Directory.incrLocalDepth, hmod, hdiv,
          Nat.lt_succ_self]
      · simp [hidx, hc, Directory.setBucketPageId, Directory.incrLocalDepth, hmod, hdiv,
          Nat.lt_succ_self]
    · have hset : ∀ (dd : Directory) (p q : Nat),
          ((if n % 2 = 0 then (dd.incrLocalDepth ((n <<< ld) ||| low)).setBucketPageId
              ((n <<< ld) ||| low) p
            else (dd.incrLocalDepth ((n <<< ld) ||| low)).setBucketPageId
              ((n <<< ld) ||| low) q)).bucketPageIds j
          = dd.bucketPageIds j := by
        intro dd p q
        by_cases hc : n % 2 = 0 <;>
          simp [hc, Directory.setBucketPageId, Directory.incrLocalDepth, hidx, hj]
      rw [hset, ih j]
      by_cases hfam : j % 2 ^ ld = low ∧ j / 2 ^ ld < n
      · have hfam1 : j % 2 ^ ld = low ∧ j / 2 ^ ld < n + 1 := ⟨hfam.1, by omega⟩
        rw [if_pos hfam, if_pos hfam1]
      · rw [if_neg hfam, if_neg (by
          rintro ⟨hm, hd⟩
          rcases Nat.lt_succ_iff_lt_or_eq.mp hd with hlt | heq
          · exact hfam ⟨hm, hlt⟩
          · exact hj (idx_inj hlow hm heq))]

theorem mergeLoop_globalDepth (ld low spid : Nat) (N : Nat) (d : Directory) :
    (mergeLoop ld low spid N d).globalDepth = d.globalDepth := by
  induction N with
  | zero => rfl
  | succ n ih =>
    rw [mergeLoop]
    simp [Directory.setBucketPageId, Directory.decrLocalDepth, ih]

theorem mergeLoop_localDepths (ld low spid : Nat) {N : Nat}
    (hlow : low < 2 ^ ld) (d : Directory) (j : Nat) :
    (mergeLoop ld low spid N d).localDepths j =
      if j % 2 ^ ld = low ∧ j / 2 ^ ld < N then d.localDepths j - 1
      else d.localDepths j := by
  induction N generalizing j with
  | zero => simp [mergeLoop]
  | succ n ih =>
    rw [mergeLoop]
    have hidx : (n <<< ld) ||| low = n * 2 ^ ld + low := idx_eq n hlow
    simp only [Directory.setBucketPageId, Directory.decrLocalDepth, hidx]
    by_cases hj : j = n * 2 ^ ld + low
    · subst hj
      rw [if_pos rfl, ih (n * 2 ^ ld + low),
        if_neg (by
          rw [idx_div n hlow]
          omega),
        if_pos ⟨idx_mod n hlow, by rw [idx_div n hlow]; omega⟩]
    · rw [if_neg hj, ih j]
      by_cases hfam : j % 2 ^ ld = low ∧ j / 2 ^ ld < n
      · rw [if_pos hfam, if_pos ⟨hfam.1, by omega⟩]
      · rw [if_neg hfam, if_neg (by
          rintro ⟨hm, hd⟩
          rcases Nat.lt_succ_iff_lt_or_eq.mp hd with hlt | heq
          · exact hfam ⟨hm, hlt⟩
          · exact hj (idx_inj hlow hm heq))]

theorem mergeLoop_bucketPageIds (ld low spid : Nat) {N : Nat}
    (hlow : low < 2 ^ ld) (d : Directory) (j : Nat) :
    (mergeLoop ld low spid N d).bucketPageIds j =
      if j % 2 ^ ld = low ∧ j / 2 ^ ld < N then spid
      else d.bucketPageIds j := by
  induction N generalizing j with
  | zero => simp [mergeLoop]
  | succ n ih =>
    rw [mergeLoop]
    have hidx : (n <<< ld) ||| low = n * 2 ^ ld + low := idx_eq n hlow
    simp only [Directory.setBucketPageId, Directory.decrLocalDepth, hidx]
    by_cases hj : j = n * 2 ^ ld + low
    · subst hj
      rw [if_pos rfl]
      rw [if_pos ⟨idx_mod n hlow, by rw [idx_div n hlow]; omega⟩]
    · rw [if_neg hj, ih j]
      by_cases hfam : j % 2 ^ ld = low ∧ j / 2 ^ ld < n
      · rw [if_pos hfam, if_pos ⟨hfam.1, by omega⟩]
      · rw [if_neg hfam, if_neg (by
          rintro ⟨hm, hd⟩
          rcases Nat.lt_succ_iff_lt_or_eq.mp hd with hlt | heq
          · exact hfam ⟨hm, hlt⟩
          · exact hj (idx_inj hlow hm heq))]

theorem canShrink_iff (d : Directory) :
    d.canShrink = true ↔ ∀ i < d.size, d.localDepths i < d.globalDepth := by
  simp [Directory.canShrink, List.all_eq_true, List.mem_range]

theorem incr_globalDepth (d : Directory) :
    d.incrGlobalDepth.globalDepth = d.globalDepth + 1 := rfl

theorem two_pow_succ_eq (g : Nat) : (2 : Nat) ^ (g + 1) = 2 ^ g + 2 ^ g := by
  rw [Nat.pow_succ]
  omega

theorem incr_localDepths (d : Directory) {j : Nat} (hj : j < 2 ^ (d.globalDepth + 1)) :
    d.incrGlobalDepth.localDepths j = d.localDepths (j % 2 ^ d.globalDepth) := by
  have hp := two_pow_succ_eq d.globalDepth
  unfold Directory.incrGlobalDepth
  by_cases hge : 2 ^ d.globalDepth ≤ j
  · simp only [if_pos (And.intro hge hj)]
    rw [Nat.mod_eq_sub_mod hge, Nat.mod_eq_of_lt (by omega)]
  · simp only [if_neg (show ¬ (2 ^ d.globalDepth ≤ j ∧ j < 2 ^ (d.globalDepth + 1)) from
      fun hand => hge hand.1)]
    rw [Nat.mod_eq_of_lt (by omega)]

theorem incr_bucketPageIds (d : Directory) {j : Nat} (hj : j < 2 ^ (d.globalDepth + 1)) :
    d.incrGlobalDepth.bucketPageIds j = d.bucketPageIds (j % 2 ^ d.globalDepth) := by
  have hp := two_pow_succ_eq d.globalDepth
  unfold Directory.incrGlobalDepth
  by_cases hge : 2 ^ d.globalDepth ≤ j
  · simp only [if_pos (And.intro hge hj)]
    rw [Nat.mod_eq_sub_mod hge, Nat.mod_eq_of_lt (by omega)]
  · simp only [if_neg (show ¬ (2 ^ d.globalDepth ≤ j ∧ j < 2 ^ (d.globalDepth + 1)) from
      fun hand => hge hand.1)]
    rw [Nat.mod_eq_of_lt (by omega)]

end DirectoryLemmas

/-! ## Redistribution-loop lemmas -/

section RedistLemmas

variable {K V : Type} [DecidableEq V] [Inhabited K] [Inhabited V]
variable {sz : Nat} {cmp : K → K → Int} {hashFn : K → Nat}

theorem removeAt_keyAt (ob : Bucket K V) (i : Nat) : (ob.removeAt i).keyAt = ob.keyAt := rfl

theorem removeAt_valueAt (ob : Bucket K V) (i : Nat) : (ob.removeAt i).valueAt = ob.valueAt := rfl

theorem removeAt_occupied (ob : Bucket K V) (i : Nat) : (ob.removeAt i).occupied = ob.occupied := rfl

theorem removeAt_readable (ob : Bucket K V) (i j : Nat) :
    (ob.removeAt i).readable j = if j = i then false else ob.readable j := rfl

theorem redistLoop_old (d : Directory) (newPid : Nat) (l : List Nat) (ob nb : Bucket K V) :
    (redistLoop sz cmp hashFn d newPid l ob nb).1.keyAt = ob.keyAt ∧
    (redistLoop sz cmp hashFn d newPid l ob nb).1.valueAt = ob.valueAt ∧
    (redistLoop sz cmp hashFn d newPid l ob nb).1.occupied = ob.occupied ∧
    ∀ j, (redistLoop sz cmp hashFn d newPid l ob nb).1.readable j =
      if j ∈ l ∧ keyToPageId hashFn (ob.keyAt j) d = newPid then false else ob.readable j := by
  induction l generalizing ob nb with
  | nil =>
    refine ⟨rfl, rfl, rfl, fun j => ?_⟩
    rw [if_neg (by rintro ⟨hmem, -⟩; exact List.not_mem_nil j hmem)]
    rfl
  | cons i rest ih =>
    by_cases hP : keyToPageId hashFn (ob.keyAt i) d = newPid
    · rw [redistLoop, if_pos hP]
      obtain ⟨hk, hv, ho, hr⟩ :=
        ih (ob.removeAt i) (bucketInsert sz cmp nb (ob.keyAt i) (ob.valueAt i)).1
      rw [removeAt_keyAt] at hk hr
      rw [removeAt_valueAt] at hv
      rw [removeAt_occupied] at ho
      refine ⟨hk, hv, ho, ?_⟩
      intro j
      rw [hr j]
      by_cases hji : j = i
      · subst hji
        by_cases hjrest : j ∈ rest ∧ keyToPageId hashFn (ob.keyAt j) d = newPid
        · rw [if_pos hjrest, if_pos ⟨List.mem_cons_self j rest, hP⟩]
        · rw [if_neg hjrest, removeAt_readable, if_pos rfl,
            if_pos ⟨List.mem_cons_self j rest, hP⟩]
      · rw [removeAt_readable, if_neg hji]
        by_cases hjrest : j ∈ rest ∧ keyToPageId hashFn (ob.keyAt j) d = newPid
        · rw [if_pos hjrest, if_pos ⟨List.mem_cons_of_mem i hjrest.1, hjrest.2⟩]
        · rw [if_neg hjrest, if_neg (by
            rintro ⟨hmem, hp⟩
            rcases List.mem_cons.mp hmem with rfl | hmem'
            · exact hji rfl
            · exact hjrest ⟨hmem', hp⟩)]
    · rw [redistLoop, if_neg hP]
      obtain ⟨hk, hv, ho, hr⟩ := ih ob nb
      refine ⟨hk, hv, ho, ?_⟩
      intro j
      rw [hr j]
      by_cases hjrest : j ∈ rest ∧ keyToPageId hashFn (ob.keyAt j) d = newPid
      · rw [if_pos hjrest, if_pos ⟨List.mem_cons_of_mem i hjrest.1, hjrest.2⟩]
      · rw [if_neg hjrest, if_neg (by
          rintro ⟨hmem, hp⟩
          rcases List.mem_cons.mp hmem with rfl | hmem'
          · exact hP hp
          · exact hjrest ⟨hmem', hp⟩)]

theorem redistLoop_new_noDup (d : Directory) (newPid : Nat) (l : List Nat) (ob nb : Bucket K V)
    (hnd : bucketNoDup sz nb) :
    bucketNoDup sz (redistLoop sz cmp hashFn d newPid l ob nb).2 := by
  induction l generalizing ob nb with
  | nil => exact hnd
  | cons i rest ih =>
    by_cases hP : keyToPageId hashFn (ob.keyAt i) d = newPid
    · rw [redistLoop, if_pos hP]
      exact ih (ob.removeAt i) _ (bucketInsert_preserves_noDup hnd)
    · rw [redistLoop, if_neg hP]
      exact ih ob nb hnd

theorem redistLoop_new_pairs (d : Directory) (newPid : Nat) (l : List Nat) (ob nb : Bucket K V)
    {s : Nat} (hr : (redistLoop sz cmp hashFn d newPid l ob nb).2.readable s = true) :
    (nb.readable s = true ∧
      (redistLoop sz cmp hashFn d newPid l ob nb).2.keyAt s = nb.keyAt s ∧
      (redistLoop sz cmp hashFn d newPid l ob nb).2.valueAt s = nb.valueAt s) ∨
    (∃ i ∈ l, keyToPageId hashFn (ob.keyAt i) d = newPid ∧
      (redistLoop sz cmp hashFn d newPid l ob nb).2.keyAt s = ob.keyAt i ∧
      (redistLoop sz cmp hashFn d newPid l ob nb).2.valueAt s = ob.valueAt i) := by
  induction l generalizing ob nb with
  | nil => exact Or.inl ⟨hr, rfl, rfl⟩
  | cons i rest ih =>
    by_cases hP : keyToPageId hashFn (ob.keyAt i) d = newPid
    · rw [redistLoop, if_pos hP] at hr ⊢
      rcases ih (ob.removeAt i) (bucketInsert sz cmp nb (ob.keyAt i) (ob.valueAt i)).1 hr with
        ⟨hnbr, hks, hvs⟩ | ⟨t, ht, hPt, hks, hvs⟩
      · rcases bucketInsert_pairs hnbr with ⟨hk2, hv2⟩ | ⟨hr2, hk2, hv2⟩
        · right
          exact ⟨i, List.mem_cons_self i rest, hP, by rw [hks, hk2], by rw [hvs, hv2]⟩
        · left
          exact ⟨hr2, by rw [hks, hk2], by rw [hvs, hv2]⟩
      · right
        rw [removeAt_keyAt] at hPt hks
        rw [removeAt_valueAt] at hvs
        exact ⟨t, List.mem_cons_of_mem i ht, hPt, hks, hvs⟩
    · rw [redistLoop, if_neg hP] at hr ⊢
      rcases ih ob nb hr with hl | ⟨t, ht, hrest⟩
      · exact Or.inl hl
      · exact Or.inr ⟨t, List.mem_cons_of_mem i ht, hrest⟩

end RedistLemmas

/-! ## Invariant preservation -/

section InvLemmas

variable {K V : Type} [DecidableEq V] [Inhabited K] [Inhabited V]
variable {sz : Nat} {cmp : K → K → Int} {maxDepth : Nat} {hashFn : K → Nat}

theorem setPage_dir (st : EHT K V) (pid : Nat) (b : Bucket K V) :
    (st.setPage pid b).dir = st.dir := rfl

theorem setPage_nextPageId (st : EHT K V) (pid : Nat) (b : Bucket K V) :
    (st.setPage pid b).nextPageId = st.nextPageId := rfl

theorem setPage_dirPageId (st : EHT K V) (pid : Nat) (b : Bucket K V) :
    (st.setPage pid b).dirPageId = st.dirPageId := rfl

theorem setPage_pages (st : EHT K V) (pid : Nat) (b : Bucket K V) (q : Nat) :
    (st.setPage pid b).pages q = if q = pid then b else st.pages q := rfl

theorem route_lt_size (k : K) (d : Directory) :
    keyToDirectoryIndex hashFn k d < d.size := by
  unfold keyToDirectoryIndex Directory.globalDepthMask Directory.size
  rw [mask_eq_mod]
  exact Nat.mod_lt _ (Nat.two_pow_pos _)

theorem route_mod (k : K) (d : Directory) :
    keyToDirectoryIndex hashFn k d = ehtHash hashFn k % 2 ^ d.globalDepth := by
  unfold keyToDirectoryIndex Directory.globalDepthMask
  rw [mask_eq_mod]

theorem dirI3_mod_iff (d : Directory) :
    dirI3 d ↔ ∀ i < d.size, ∀ j < d.size,
      j % 2 ^ d.localDepths i = i % 2 ^ d.localDepths i →
      d.bucketPageIds j = d.bucketPageIds i ∧ d.localDepths j = d.localDepths i := by
  unfold dirI3
  simp only [one_shiftLeft_eq, mask_eq_mod]

theorem emptyBucket_noDup : bucketNoDup sz (emptyBucket : Bucket K V) := by
  intro s _ t _ hr
  simp [emptyBucket] at hr

theorem inv_init : Inv sz maxDepth hashFn (initEHT : EHT K V) := by
  constructor
  · exact Nat.zero_le _
  · intro i hi
    exact Nat.le_refl _
  · rw [dirI3_mod_iff]
    intro i hi j hj hm
    exact ⟨rfl, rfl⟩
  · intro i hi j hj hp
    have hsz : (initEHT : EHT K V).dir.size = 1 := rfl
    rw [hsz] at hi hj
    have hi0 : i = 0 := by omega
    have hj0 : j = 0 := by omega
    rw [hi0, hj0]
    exact ⟨rfl, rfl⟩
  · intro i hi
    exact (by omega : (0 : Nat) < 2)
  · intro idx hidx s hs hr
    simp [initEHT, emptyBucket] at hr
  · intro idx hidx s hs t ht hr
    simp [initEHT, emptyBucket] at hr

/-- The fast-path write-back of `Insert` preserves the invariant. -/
theorem inv_setPage_bucketInsert (st : EHT K V) (k : K) (v : V)
    (hInv : Inv sz maxDepth hashFn st) :
    Inv sz maxDepth hashFn
      (st.setPage (st.dir.getBucketPageId (keyToDirectoryIndex hashFn k st.dir))
        (bucketInsert sz cmp
          (st.pages (st.dir.getBucketPageId (keyToDirectoryIndex hashFn k st.dir))) k v).1) := by
  set r := keyToDirectoryIndex hashFn k st.dir with hr_def
  set pid := st.dir.getBucketPageId r with hpid_def
  set b1 := (bucketInsert sz cmp (st.pages pid) k v).1 with hb1_def
  have hrlt : r < st.dir.size := route_lt_size k st.dir
  constructor
  · exact hInv.gdLe
  · exact hInv.ldLe
  · exact hInv.i3
  · exact hInv.pidInj
  · exact hInv.fresh
  · -- I4
    intro idx hidx s hs hread
    rw [setPage_pages] at hread ⊢
    rw [setPage_dir] at hidx hread ⊢
    by_cases hpe : st.dir.bucketPageIds idx = pid
    · rw [hpe, if_pos rfl] at hread ⊢
      rcases bucketInsert_pairs hread with ⟨hk2, hv2⟩ | ⟨hold, hk2, hv2⟩
      · -- the newly inserted pair: its key is `k`, which routes to this very page
        rw [hk2]
        have hpj := hInv.pidInj idx hidx r hrlt (by rw [hpe]; rfl)
        have hldr : st.dir.localDepths idx ≤ st.dir.globalDepth := hInv.ldLe idx hidx
        have hhash : ehtHash hashFn k % 2 ^ st.dir.localDepths idx
            = r % 2 ^ st.dir.localDepths idx := by
          rw [hr_def, route_mod, mod_mod_pow_le hldr]
        rw [hhash]
        exact (hpj.2).symm
      · rw [hk2]
        have hi4 := hInv.i4 idx hidx s hs
        rw [hpe] at hi4
        exact hi4 hold
    · rw [if_neg hpe] at hread ⊢
      exact hInv.i4 idx hidx s hs hread
  · -- noDup
    intro idx hidx s hs t ht
    rw [setPage_pages]
    rw [setPage_dir] at hidx ⊢
    by_cases hpe : st.dir.bucketPageIds idx = pid
    · rw [hpe, if_pos rfl]
      have hbase : bucketNoDup sz (st.pages pid) := by
        intro s' hs' t' ht' hrs hrt hks hvs
        have hnd := hInv.noDup idx hidx s' hs' t' ht'
        rw [hpe] at hnd
        exact hnd hrs hrt hks hvs
      exact fun hrs hrt hks hvs =>
        bucketInsert_preserves_noDup hbase s hs t ht hrs hrt hks hvs
    · rw [if_neg hpe]
      exact fun hrs hrt hks hvs => hInv.noDup idx hidx s hs t ht hrs hrt hks hvs

/-- Growing the directory preserves the invariant. -/
theorem inv_incrGlobalDepth (st : EHT K V)
    (hInv : Inv sz maxDepth hashFn st) (hlt : st.dir.globalDepth < maxDepth) :
    Inv sz maxDepth hashFn { st with dir := st.dir.incrGlobalDepth } := by
  have hsize : (st.dir.incrGlobalDepth).size = 2 ^ (st.dir.globalDepth + 1) := rfl
  have hmodlt : ∀ j : Nat, j % 2 ^ st.dir.globalDepth < 2 ^ st.dir.globalDepth :=
    fun j => Nat.mod_lt _ (Nat.two_pow_pos st.dir.globalDepth)
  have hsize0 : st.dir.size = 2 ^ st.dir.globalDepth := rfl
  constructor
  · exact hlt
  · intro i hi
    rw [hsize] at hi
    rw [incr_localDepths st.dir hi, incr_globalDepth]
    have := hInv.ldLe (i % 2 ^ st.dir.globalDepth) (by rw [hsize0]; exact hmodlt i)
    omega
  · rw [dirI3_mod_iff]
    intro i hi j hj hm
    rw [hsize] at hi hj
    rw [incr_localDepths st.dir hi] at hm ⊢
    rw [incr_localDepths st.dir hj, incr_bucketPageIds st.dir hi, incr_bucketPageIds st.dir hj]
    have hld : st.dir.localDepths (i % 2 ^ st.dir.globalDepth) ≤ st.dir.globalDepth :=
      hInv.ldLe (i % 2 ^ st.dir.globalDepth) (by rw [hsize0]; exact hmodlt i)
    have hmi : i % 2 ^ st.dir.globalDepth % 2 ^ st.dir.localDepths (i % 2 ^ st.dir.globalDepth)
        = i % 2 ^ st.dir.localDepths (i % 2 ^ st.dir.globalDepth) := mod_mod_pow_le hld i
    have hmj : j % 2 ^ st.dir.globalDepth % 2 ^ st.dir.localDepths (i % 2 ^ st.dir.globalDepth)
        = j % 2 ^ st.dir.localDepths (i % 2 ^ st.dir.globalDepth) := mod_mod_pow_le hld j
    have hm' : j % 2 ^ st.dir.globalDepth % 2 ^ st.dir.localDepths (i % 2 ^ st.dir.globalDepth)
        = i % 2 ^ st.dir.globalDepth % 2 ^ st.dir.localDepths (i % 2 ^ st.dir.globalDepth) := by
      rw [hmi, hmj, hm]
    exact (dirI3_mod_iff st.dir).mp hInv.i3 (i % 2 ^ st.dir.globalDepth) (by rw [hsize0]; exact hmodlt i)
      (j % 2 ^ st.dir.globalDepth) (by rw [hsize0]; exact hmodlt j) hm'
  · intro i hi j hj hp
    rw [hsize] at hi hj
    rw [incr_bucketPageIds st.dir hi, incr_bucketPageIds st.dir hj] at hp
    rw [incr_localDepths st.dir hi]
    have hbase := hInv.pidInj (i % 2 ^ st.dir.globalDepth) (by rw [hsize0]; exact hmodlt i)
      (j % 2 ^ st.dir.globalDepth) (by rw [hsize0]; exact hmodlt j) hp
    have hld : st.dir.localDepths (i % 2 ^ st.dir.globalDepth) ≤ st.dir.globalDepth :=
      hInv.ldLe (i % 2 ^ st.dir.globalDepth) (by rw [hsize0]; exact hmodlt i)
    rw [incr_localDepths st.dir hj]
    refine ⟨hbase.1, ?_⟩
    have hmi : i % 2 ^ st.dir.globalDepth % 2 ^ st.dir.localDepths (i % 2 ^ st.dir.globalDepth)
        = i % 2 ^ st.dir.localDepths (i % 2 ^ st.dir.globalDepth) := mod_mod_pow_le hld i
    have hmj : j % 2 ^ st.dir.globalDepth % 2 ^ st.dir.localDepths (i % 2 ^ st.dir.globalDepth)
        = j % 2 ^ st.dir.localDepths (i % 2 ^ st.dir.globalDepth) := mod_mod_pow_le hld j
    rw [← hmi, ← hmj]
    exact hbase.2
  · intro i hi
    rw [hsize] at hi
    rw [incr_bucketPageIds st.dir hi]
    exact hInv.fresh (i % 2 ^ st.dir.globalDepth) (by rw [hsize0]; exact hmodlt i)
  · intro idx hidx s hs
    rw [hsize] at hidx
    rw [incr_bucketPageIds st.dir hidx, incr_localDepths st.dir hidx]
    intro hread
    have hbase := hInv.i4 (idx % 2 ^ st.dir.globalDepth) (by rw [hsize0]; exact hmodlt idx) s hs hread
    have hld : st.dir.localDepths (idx % 2 ^ st.dir.globalDepth) ≤ st.dir.globalDepth :=
      hInv.ldLe (idx % 2 ^ st.dir.globalDepth) (by rw [hsize0]; exact hmodlt idx)
    rw [← mod_mod_pow_le hld idx]
    exact hbase
  · intro idx hidx s hs t ht
    rw [hsize] at hidx
    rw [incr_bucketPageIds st.dir hidx]
    exact hInv.noDup (idx % 2 ^ st.dir.globalDepth) (by rw [hsize0]; exact hmodlt idx) s hs t ht

theorem eht_ext (a b : EHT K V) (hdir : a.dir = b.dir)
    (hpages : ∀ q, a.pages q = b.pages q) (hnext : a.nextPageId = b.nextPageId)
    (hdp : a.dirPageId = b.dirPageId) : a = b := by
  cases a
  cases b
  simp only [EHT.mk.injEq]
  exact ⟨hdir, funext hpages, hnext, hdp⟩

/-- The split step of `SplitInsert` (growth, directory-update loop and
redistribution) preserves the invariant.  The intermediate values are the
ones the code computes, given as defining equations. -/
theorem inv_after_split (st : EHT K V) (k : K) (v : V)
    (bucketId pid newPid ld gd low : Nat) (d1 d2 : Directory)
    (st1 : EHT K V) (rb : Bucket K V × Bucket K V)
    (hInv : Inv sz maxDepth hashFn st)
    (hnostuck : ¬ (st.dir.getLocalDepth (keyToDirectoryIndex hashFn k st.dir)
        = st.dir.globalDepth ∧ Directory.canIncrGlobalDepth maxDepth st.dir = false))
    (hbid : bucketId = keyToDirectoryIndex hashFn k st.dir)
    (hpid : pid = st.dir.getBucketPageId bucketId)
    (hd1 : d1 = if st.dir.getLocalDepth bucketId = st.dir.globalDepth
        then st.dir.incrGlobalDepth else st.dir)
    (hst1 : st1 = (ehtNewPage { st with dir := d1 }).1)
    (hnew : newPid = (ehtNewPage { st with dir := d1 }).2)
    (hld : ld = d1.getLocalDepth bucketId)
    (hgd : gd = d1.globalDepth)
    (hlow : low = bucketId &&& ((1 <<< ld) - 1))
    (hd2 : d2 = splitLoop ld low pid newPid (2 ^ (gd - ld)) d1)
    (hrb : rb = redistLoop sz cmp hashFn d2 newPid (List.range sz)
        (st1.pages pid) (st1.pages newPid)) :
    Inv sz maxDepth hashFn ((({ st1 with dir := d2 }).setPage pid rb.1).setPage newPid rb.2) := by
  rw [← hbid] at hnostuck
  have hbidlt0 : bucketId < st.dir.size := by
    rw [hbid]
    exact route_lt_size k st.dir
  have hbidlt0' : bucketId < 2 ^ st.dir.globalDepth := hbidlt0
  have hldle0 : st.dir.localDepths bucketId ≤ st.dir.globalDepth := hInv.ldLe _ hbidlt0
  -- invariant after the (possible) growth
  have hInvA : Inv sz maxDepth hashFn { st with dir := d1 } := by
    rw [hd1]
    by_cases hc : st.dir.getLocalDepth bucketId = st.dir.globalDepth
    · rw [if_pos hc]
      apply inv_incrGlobalDepth st hInv
      rcases hb : Directory.canIncrGlobalDepth maxDepth st.dir with _ | _
      · exact absurd ⟨hc, hb⟩ hnostuck
      · unfold Directory.canIncrGlobalDepth at hb
        exact of_decide_eq_true hb
    · rw [if_neg hc]
      exact hInv
  have hld1 : d1.localDepths bucketId = ld := hld.symm
  have hgd0le : st.dir.globalDepth ≤ gd := by
    rw [hgd, hd1]
    by_cases hc : st.dir.getLocalDepth bucketId = st.dir.globalDepth
    · rw [if_pos hc, incr_globalDepth]
      omega
    · rw [if_neg hc]
  have hlt : ld < gd := by
    rw [hld, hgd, hd1]
    by_cases hc : st.dir.getLocalDepth bucketId = st.dir.globalDepth
    · rw [if_pos hc]
      have hblt : bucketId < 2 ^ (st.dir.globalDepth + 1) := by
        have := two_pow_succ_eq st.dir.globalDepth
        omega
      have h1 : st.dir.incrGlobalDepth.getLocalDepth bucketId
          = st.dir.localDepths bucketId := by
        unfold Directory.getLocalDepth
        rw [incr_localDepths st.dir hblt, Nat.mod_eq_of_lt hbidlt0']
      rw [h1, incr_globalDepth]
      unfold Directory.getLocalDepth at hc
      omega
    · rw [if_neg hc]
      unfold Directory.getLocalDepth at hc ⊢
      omega
  have hldgd : ld ≤ gd := Nat.le_of_lt hlt
  have hsizeA : d1.size = 2 ^ gd := by
    unfold Directory.size
    rw [hgd]
  have hbidlt : bucketId < 2 ^ gd :=
    Nat.lt_of_lt_of_le hbidlt0' (Nat.pow_le_pow_right (by omega) hgd0le)
  have hlow_lt : low < 2 ^ ld := by
    rw [hlow, one_shiftLeft_eq, mask_eq_mod]
    exact Nat.mod_lt _ (Nat.two_pow_pos ld)
  have hlow_eq : low = bucketId % 2 ^ ld := by
    rw [hlow, one_shiftLeft_eq, mask_eq_mod]
  have hpid1 : d1.bucketPageIds bucketId = pid := by
    rw [hpid, hd1]
    by_cases hc : st.dir.getLocalDepth bucketId = st.dir.globalDepth
    · rw [if_pos hc]
      have hblt : bucketId < 2 ^ (st.dir.globalDepth + 1) := by
        have := two_pow_succ_eq st.dir.globalDepth
        omega
      unfold Directory.getBucketPageId
      rw [incr_bucketPageIds st.dir hblt, Nat.mod_eq_of_lt hbidlt0']
    · rw [if_neg hc]
      rfl
  have hF1 : ∀ j < 2 ^ gd, j % 2 ^ ld = bucketId % 2 ^ ld →
      d1.localDepths j = ld ∧ d1.bucketPageIds j = pid := by
    intro j hj hm
    have h3 := (dirI3_mod_iff d1).mp hInvA.i3 bucketId (by rw [hsizeA]; exact hbidlt)
      j (by rw [hsizeA]; exact hj) (by rw [hld1]; exact hm)
    exact ⟨by rw [h3.2, hld1], by rw [h3.1, hpid1]⟩
  have hF2 : ∀ j < 2 ^ gd, ¬ (j % 2 ^ ld = bucketId % 2 ^ ld) → d1.bucketPageIds j ≠ pid := by
    intro j hj hne hp
    have h := hInvA.pidInj j (by rw [hsizeA]; exact hj) bucketId (by rw [hsizeA]; exact hbidlt)
      (by rw [hp, hpid1])
    have hlj : d1.localDepths j = ld := by rw [h.1, hld1]
    rw [hlj] at h
    exact hne h.2
  have hnewval : newPid = st.nextPageId := by
    rw [hnew]
    rfl
  have hF3 : ∀ j < 2 ^ gd, d1.bucketPageIds j ≠ newPid := by
    intro j hj
    have hfr : d1.bucketPageIds j < st.nextPageId := hInvA.fresh j (by rw [hsizeA]; exact hj)
    rw [hnewval]
    omega
  have hpidlt : pid < newPid := by
    have hfr : d1.bucketPageIds bucketId < st.nextPageId :=
      hInvA.fresh bucketId (by rw [hsizeA]; exact hbidlt)
    rw [hpid1] at hfr
    rw [hnewval]
    exact hfr
  have hpidne : pid ≠ newPid := Nat.ne_of_lt hpidlt
  have hd2gd : d2.globalDepth = gd := by
    rw [hd2, splitLoop_globalDepth, hgd]
  have hd2ld : ∀ j, d2.localDepths j =
      if j % 2 ^ ld = low ∧ j / 2 ^ ld < 2 ^ (gd - ld) then d1.localDepths j + 1
      else d1.localDepths j := by
    intro j
    rw [hd2]
    exact splitLoop_localDepths _ _ _ _ hlow_lt d1 j
  have hd2pid : ∀ j, d2.bucketPageIds j =
      if j % 2 ^ ld = low ∧ j / 2 ^ ld < 2 ^ (gd - ld) then
        (if j / 2 ^ ld % 2 = 0 then pid else newPid)
      else d1.bucketPageIds j := by
    intro j
    rw [hd2]
    exact splitLoop_bucketPageIds _ _ _ _ hlow_lt d1 j
  have hfam_iff : ∀ j, j < 2 ^ gd →
      ((j % 2 ^ ld = low ∧ j / 2 ^ ld < 2 ^ (gd - ld)) ↔ j % 2 ^ ld = bucketId % 2 ^ ld) := by
    intro j hj
    rw [hlow_eq]
    constructor
    · rintro ⟨hm, -⟩
      exact hm
    · intro hm
      exact (family_iff hldgd).mpr ⟨hj, hm⟩
  have hsz2 : d2.size = 2 ^ gd := by
    unfold Directory.size
    rw [hd2gd]
  have hFpages : ∀ q, ((({ st1 with dir := d2 }).setPage pid rb.1).setPage newPid rb.2).pages q
      = if q = newPid then rb.2 else if q = pid then rb.1 else st.pages q := by
    intro q
    by_cases h1 : q = newPid
    · simp [EHT.setPage, h1]
    · by_cases h2 : q = pid
      · simp [EHT.setPage, h1, h2, hpidne]
      · have h3 : q ≠ st.nextPageId := by
          rw [← hnewval]
          exact h1
        simp [EHT.setPage, h1, h2, hst1, ehtNewPage, h3]
  have hob : st1.pages pid = st.pages pid := by
    rw [hst1]
    have h3 : pid ≠ st.nextPageId := by
      rw [← hnewval]
      exact hpidne
    simp [ehtNewPage, h3]
  have hnb : st1.pages newPid = emptyBucket := by
    rw [hst1, hnewval]
    simp [ehtNewPage]
  obtain ⟨hrk, hrv, hro, hrr⟩ :=
    @redistLoop_old K V _ _ _ sz cmp hashFn d2 newPid (List.range sz)
      (st1.pages pid) (st1.pages newPid)
  rw [← hrb] at hrk hrv hro hrr
  rw [hob] at hrk hrv hro hrr
  have hroute2 : ∀ key : K, keyToPageId hashFn key d2
      = d2.bucketPageIds (ehtHash hashFn key % 2 ^ gd) := by
    intro key
    unfold keyToPageId Directory.getBucketPageId
    rw [route_mod, hd2gd]
  have hkey : ((({ st1 with dir := d2 }).setPage pid rb.1).setPage newPid rb.2)
      = EHT.mk d2 (fun q => if q = newPid then rb.2 else if q = pid then rb.1 else st.pages q)
        (st.nextPageId + 1) st.dirPageId := by
    refine eht_ext _ _ rfl hFpages ?_ ?_
    · rw [hst1]
      rfl
    · rw [hst1]
      rfl
  rw [hkey]
  constructor
  · -- gdLe
    show d2.globalDepth ≤ maxDepth
    rw [hd2gd, hgd]
    exact hInvA.gdLe
  · -- ldLe
    intro i hi
    have hi2 : i < 2 ^ gd := by
      rw [← hsz2]
      exact hi
    show d2.localDepths i ≤ d2.globalDepth
    rw [hd2ld i, hd2gd]
    by_cases hfam : i % 2 ^ ld = low ∧ i / 2 ^ ld < 2 ^ (gd - ld)
    · rw [if_pos hfam, (hF1 i hi2 ((hfam_iff i hi2).mp hfam)).1]
      omega
    · rw [if_neg hfam]
      have hle : d1.localDepths i ≤ d1.globalDepth :=
        hInvA.ldLe i (by rw [hsizeA]; exact hi2)
      rw [hgd]
      exact hle
  · -- I3
    rw [dirI3_mod_iff]
    intro i hi j hj hm
    have hi2 : i < 2 ^ gd := by
      rw [← hsz2]
      exact hi
    have hj2 : j < 2 ^ gd := by
      rw [← hsz2]
      exact hj
    have hm2 : j % 2 ^ d2.localDepths i = i % 2 ^ d2.localDepths i := hm
    show d2.bucketPageIds j = d2.bucketPageIds i ∧ d2.localDepths j = d2.localDepths i
    by_cases hfi : i % 2 ^ ld = bucketId % 2 ^ ld
    · have hfi' := (hfam_iff i hi2).mpr hfi
      have hldi : d2.localDepths i = ld + 1 := by
        rw [hd2ld i, if_pos hfi', (hF1 i hi2 hfi).1]
      rw [hldi] at hm2
      have hmld : j % 2 ^ ld = i % 2 ^ ld := mod_of_mod_pow_succ hm2
      have hfj : j % 2 ^ ld = bucketId % 2 ^ ld := by rw [hmld, hfi]
      have hfj' := (hfam_iff j hj2).mpr hfj
      have hldj : d2.localDepths j = ld + 1 := by
        rw [hd2ld j, if_pos hfj', (hF1 j hj2 hfj).1]
      have hbit : j / 2 ^ ld % 2 = i / 2 ^ ld % 2 := bit_of_mod_pow_succ hm2
      constructor
      · rw [hd2pid i, hd2pid j, if_pos hfi', if_pos hfj', hbit]
      · rw [hldi, hldj]
    · have hfi' : ¬ (i % 2 ^ ld = low ∧ i / 2 ^ ld < 2 ^ (gd - ld)) := by
        intro h
        exact hfi ((hfam_iff i hi2).mp h)
      have hldi : d2.localDepths i = d1.localDepths i := by
        rw [hd2ld i, if_neg hfi']
      rw [hldi] at hm2
      have hbase := (dirI3_mod_iff d1).mp hInvA.i3 i (by rw [hsizeA]; exact hi2)
        j (by rw [hsizeA]; exact hj2) hm2
      have hfj : ¬ (j % 2 ^ ld = bucketId % 2 ^ ld) := by
        intro hfj
        have hj1 := hF1 j hj2 hfj
        have hip : d1.bucketPageIds i = pid := by
          rw [← hbase.1, hj1.2]
        exact hF2 i hi2 hfi hip
      have hfj' : ¬ (j % 2 ^ ld = low ∧ j / 2 ^ ld < 2 ^ (gd - ld)) := by
        intro h
        exact hfj ((hfam_iff j hj2).mp h)
      constructor
      · rw [hd2pid i, hd2pid j, if_neg hfi', if_neg hfj']
        exact hbase.1
      · rw [hldi, hd2ld j, if_neg hfj']
        exact hbase.2
  · -- pidInj
    intro i hi j hj hp
    have hi2 : i < 2 ^ gd := by
      rw [← hsz2]
      exact hi
    have hj2 : j < 2 ^ gd := by
      rw [← hsz2]
      exact hj
    have hp2 : d2.bucketPageIds i = d2.bucketPageIds j := hp
    show d2.localDepths i = d2.localDepths j ∧ i % 2 ^ d2.localDepths i = j % 2 ^ d2.localDepths i
    by_cases hfi : i % 2 ^ ld = bucketId % 2 ^ ld <;>
      by_cases hfj : j % 2 ^ ld = bucketId % 2 ^ ld
    · have hfi' := (hfam_iff i hi2).mpr hfi
      have hfj' := (hfam_iff j hj2).mpr hfj
      have hldi : d2.localDepths i = ld + 1 := by
        rw [hd2ld i, if_pos hfi', (hF1 i hi2 hfi).1]
      have hldj : d2.localDepths j = ld + 1 := by
        rw [hd2ld j, if_pos hfj', (hF1 j hj2 hfj).1]
      rw [hd2pid i, hd2pid j, if_pos hfi', if_pos hfj'] at hp2
      have hbit : i / 2 ^ ld % 2 = j / 2 ^ ld % 2 := by
        by_cases hbi : i / 2 ^ ld % 2 = 0 <;> by_cases hbj : j / 2 ^ ld % 2 = 0
        · omega
        · rw [if_pos hbi, if_neg hbj] at hp2
          exact absurd hp2 hpidne
        · rw [if_neg hbi, if_pos hbj] at hp2
          exact absurd hp2.symm hpidne
        · omega
      refine ⟨by rw [hldi, hldj], ?_⟩
      rw [hldi]
      exact mod_pow_succ_combine (by rw [hfi, hfj]) hbit
    · have hfi' := (hfam_iff i hi2).mpr hfi
      have hfj' : ¬ (j % 2 ^ ld = low ∧ j / 2 ^ ld < 2 ^ (gd - ld)) := by
        intro h
        exact hfj ((hfam_iff j hj2).mp h)
      rw [hd2pid i, hd2pid j, if_pos hfi', if_neg hfj'] at hp2
      by_cases hbi : i / 2 ^ ld % 2 = 0
      · rw [if_pos hbi] at hp2
        exact absurd hp2.symm (hF2 j hj2 hfj)
      · rw [if_neg hbi] at hp2
        exact absurd hp2.symm (hF3 j hj2)
    · have hfj' := (hfam_iff j hj2).mpr hfj
      have hfi' : ¬ (i % 2 ^ ld = low ∧ i / 2 ^ ld < 2 ^ (gd - ld)) := by
        intro h
        exact hfi ((hfam_iff i hi2).mp h)
      rw [hd2pid i, hd2pid j, if_neg hfi', if_pos hfj'] at hp2
      by_cases hbj : j / 2 ^ ld % 2 = 0
      · rw [if_pos hbj] at hp2
        exact absurd hp2 (hF2 i hi2 hfi)
      · rw [if_neg hbj] at hp2
        exact absurd hp2 (hF3 i hi2)
    · have hfi' : ¬ (i % 2 ^ ld = low ∧ i / 2 ^ ld < 2 ^ (gd - ld)) := by
        intro h
        exact hfi ((hfam_iff i hi2).mp h)
      have hfj' : ¬ (j % 2 ^ ld = low ∧ j / 2 ^ ld < 2 ^ (gd - ld)) := by
        intro h
        exact hfj ((hfam_iff j hj2).mp h)
      rw [hd2pid i, hd2pid j, if_neg hfi', if_neg hfj'] at hp2
      have hbase : d1.localDepths i = d1.localDepths j ∧
          i % 2 ^ d1.localDepths i = j % 2 ^ d1.localDepths i :=
        hInvA.pidInj i (by rw [hsizeA]; exact hi2) j (by rw [hsizeA]; exact hj2) hp2
      rw [hd2ld i, if_neg hfi', hd2ld j, if_neg hfj']
      exact hbase
  · -- fresh
    intro i hi
    have hi2 : i < 2 ^ gd := by
      rw [← hsz2]
      exact hi
    show d2.bucketPageIds i < st.nextPageId + 1
    rw [hd2pid i]
    by_cases hfam : i % 2 ^ ld = low ∧ i / 2 ^ ld < 2 ^ (gd - ld)
    · rw [if_pos hfam]
      by_cases hbi : i / 2 ^ ld % 2 = 0
      · rw [if_pos hbi]
        rw [hnewval] at hpidlt
        omega
      · rw [if_neg hbi, hnewval]
        omega
    · rw [if_neg hfam]
      have hfr := hInvA.fresh i (by rw [hsizeA]; exact hi2)
      have hfr2 : d1.bucketPageIds i < st.nextPageId := hfr
      omega
  · -- I4
    intro idx hidx s hs hread
    have hidx2 : idx < 2 ^ gd := by
      rw [← hsz2]
      exact hidx
    have hread2 : (if d2.bucketPageIds idx = newPid then rb.2
        else if d2.bucketPageIds idx = pid then rb.1
        else st.pages (d2.bucketPageIds idx)).readable s = true := hread
    show ehtHash hashFn ((if d2.bucketPageIds idx = newPid then rb.2
        else if d2.bucketPageIds idx = pid then rb.1
        else st.pages (d2.bucketPageIds idx)).keyAt s) % 2 ^ d2.localDepths idx
      = idx % 2 ^ d2.localDepths idx
    by_cases hfidx : idx % 2 ^ ld = bucketId % 2 ^ ld
    · have hfidx' := (hfam_iff idx hidx2).mpr hfidx
      have hldidx : d2.localDepths idx = ld + 1 := by
        rw [hd2ld idx, if_pos hfidx', (hF1 idx hidx2 hfidx).1]
      rw [hldidx]
      by_cases hbit : idx / 2 ^ ld % 2 = 0
      · have hpidx : d2.bucketPageIds idx = pid := by
          rw [hd2pid idx, if_pos hfidx', if_pos hbit]
        rw [hpidx, if_neg hpidne, if_pos rfl] at hread2 ⊢
        rw [hrr s] at hread2
        have hnotmoved : ¬ (s ∈ List.range sz ∧
            keyToPageId hashFn ((st.pages pid).keyAt s) d2 = newPid) := by
          intro hmv
          rw [if_pos hmv] at hread2
          exact Bool.noConfusion hread2
        rw [if_neg hnotmoved] at hread2
        rw [show rb.1.keyAt s = (st.pages pid).keyAt s from by rw [hrk]]
        have hi4old := hInvA.i4 bucketId (by rw [hsizeA]; exact hbidlt) s hs
        rw [show ({ st with dir := d1 } : EHT K V).pages = st.pages from rfl, hpid1] at hi4old
        have hbase := hi4old hread2
        rw [hld1] at hbase
        have hnm : keyToPageId hashFn ((st.pages pid).keyAt s) d2 ≠ newPid := by
          intro hmv
          exact hnotmoved ⟨List.mem_range.mpr hs, hmv⟩
        rw [hroute2 _] at hnm
        have hrlt2 : ehtHash hashFn ((st.pages pid).keyAt s) % 2 ^ gd < 2 ^ gd :=
          Nat.mod_lt _ (Nat.two_pow_pos gd)
        have hrmod : ehtHash hashFn ((st.pages pid).keyAt s) % 2 ^ gd % 2 ^ ld
            = bucketId % 2 ^ ld := by
          rw [mod_mod_pow_le hldgd]
          exact hbase
        have hrfam := (hfam_iff _ hrlt2).mpr hrmod
        have hrbit : ehtHash hashFn ((st.pages pid).keyAt s) % 2 ^ gd / 2 ^ ld % 2 = 0 := by
          by_contra hrb1
          rw [hd2pid _, if_pos hrfam, if_neg hrb1] at hnm
          exact hnm rfl
        have hhash_r : ehtHash hashFn ((st.pages pid).keyAt s) % 2 ^ (ld + 1)
            = ehtHash hashFn ((st.pages pid).keyAt s) % 2 ^ gd % 2 ^ (ld + 1) := by
          rw [mod_mod_pow_le (by omega : ld + 1 ≤ gd)]
        rw [hhash_r]
        exact mod_pow_succ_combine (by rw [hrmod, hfidx]) (by rw [hrbit, hbit])
      · have hpidx : d2.bucketPageIds idx = newPid := by
          rw [hd2pid idx, if_pos hfidx', if_neg hbit]
        rw [hpidx, if_pos rfl] at hread2 ⊢
        rw [hrb] at hread2
        rcases redistLoop_new_pairs d2 newPid (List.range sz) (st1.pages pid)
            (st1.pages newPid) hread2 with ⟨hnbr, -, -⟩ | ⟨i, hi, hmv, hks, hvs⟩
        · rw [hnb] at hnbr
          simp [emptyBucket] at hnbr
        · rw [← hrb] at hks
          rw [hob] at hmv hks
          rw [hks]
          rw [hroute2 _] at hmv
          have hrlt2 : ehtHash hashFn ((st.pages pid).keyAt i) % 2 ^ gd < 2 ^ gd :=
            Nat.mod_lt _ (Nat.two_pow_pos gd)
          have hrfam : ehtHash hashFn ((st.pages pid).keyAt i) % 2 ^ gd % 2 ^ ld = low ∧
              ehtHash hashFn ((st.pages pid).keyAt i) % 2 ^ gd / 2 ^ ld < 2 ^ (gd - ld) := by
            by_contra hrnf
            rw [hd2pid _, if_neg hrnf] at hmv
            exact hF3 _ hrlt2 hmv
          have hrbit : ¬ ehtHash hashFn ((st.pages pid).keyAt i) % 2 ^ gd / 2 ^ ld % 2 = 0 := by
            intro hrb0
            rw [hd2pid _, if_pos hrfam, if_pos hrb0] at hmv
            exact hpidne hmv
          have hrmod : ehtHash hashFn ((st.pages pid).keyAt i) % 2 ^ gd % 2 ^ ld
              = bucketId % 2 ^ ld := (hfam_iff _ hrlt2).mp hrfam
          have hhash_r : ehtHash hashFn ((st.pages pid).keyAt i) % 2 ^ (ld + 1)
              = ehtHash hashFn ((st.pages pid).keyAt i) % 2 ^ gd % 2 ^ (ld + 1) := by
            rw [mod_mod_pow_le (by omega : ld + 1 ≤ gd)]
          rw [hhash_r]
          exact mod_pow_succ_combine (by rw [hrmod, hfidx]) (by omega)
    · have hfidx' : ¬ (idx % 2 ^ ld = low ∧ idx / 2 ^ ld < 2 ^ (gd - ld)) := by
        intro h
        exact hfidx ((hfam_iff idx hidx2).mp h)
      have hpidx : d2.bucketPageIds idx = d1.bucketPageIds idx := by
        rw [hd2pid idx, if_neg hfidx']
      have hldidx : d2.localDepths idx = d1.localDepths idx := by
        rw [hd2ld idx, if_neg hfidx']
      rw [hldidx, hpidx]
      rw [hpidx] at hread2
      rw [if_neg (hF3 idx hidx2), if_neg (hF2 idx hidx2 hfidx)] at hread2 ⊢
      exact hInvA.i4 idx (by rw [hsizeA]; exact hidx2) s hs hread2
  · -- noDup
    intro idx hidx s hs t ht
    have hidx2 : idx < 2 ^ gd := by
      rw [← hsz2]
      exact hidx
    show (if d2.bucketPageIds idx = newPid then rb.2
        else if d2.bucketPageIds idx = pid then rb.1
        else st.pages (d2.bucketPageIds idx)).readable s = true →
      (if d2.bucketPageIds idx = newPid then rb.2
        else if d2.bucketPageIds idx = pid then rb.1
        else st.pages (d2.bucketPageIds idx)).readable t = true →
      (if d2.bucketPageIds idx = newPid then rb.2
        else if d2.bucketPageIds idx = pid then rb.1
        else st.pages (d2.bucketPageIds idx)).keyAt s =
      (if d2.bucketPageIds idx = newPid then rb.2
        else if d2.bucketPageIds idx = pid then rb.1
        else st.pages (d2.bucketPageIds idx)).keyAt t →
      (if d2.bucketPageIds idx = newPid then rb.2
        else if d2.bucketPageIds idx = pid then rb.1
        else st.pages (d2.bucketPageIds idx)).valueAt s =
      (if d2.bucketPageIds idx = newPid then rb.2
        else if d2.bucketPageIds idx = pid then rb.1
        else st.pages (d2.bucketPageIds idx)).valueAt t → s = t
    by_cases hfidx : idx % 2 ^ ld = bucketId % 2 ^ ld
    · have hfidx' := (hfam_iff idx hidx2).mpr hfidx
      by_cases hbit : idx / 2 ^ ld % 2 = 0
      · have hpidx : d2.bucketPageIds idx = pid := by
          rw [hd2pid idx, if_pos hfidx', if_pos hbit]
        rw [hpidx, if_neg hpidne, if_pos rfl]
        intro hrs hrt hks hvs
        have hsub : ∀ u, rb.1.readable u = true → (st.pages pid).readable u = true := by
          intro u hu
          rw [hrr u] at hu
          by_cases hmv : u ∈ List.range sz ∧
              keyToPageId hashFn ((st.pages pid).keyAt u) d2 = newPid
          · rw [if_pos hmv] at hu
            exact Bool.noConfusion hu
          · rw [if_neg hmv] at hu
            exact hu
        have hnd : bucketNoDup sz (st.pages pid) := by
          intro s2 hs2 t2 ht2 hrs2 hrt2 hks2 hvs2
          have hbase := hInvA.noDup bucketId (by rw [hsizeA]; exact hbidlt) s2 hs2 t2 ht2
          rw [show ({ st with dir := d1 } : EHT K V).pages = st.pages from rfl, hpid1] at hbase
          exact hbase hrs2 hrt2 hks2 hvs2
        rw [hrk] at hks
        rw [hrv] at hvs
        exact hnd s hs t ht (hsub s hrs) (hsub t hrt) hks hvs
      · have hpidx : d2.bucketPageIds idx = newPid := by
          rw [hd2pid idx, if_pos hfidx', if_neg hbit]
        rw [hpidx, if_pos rfl]
        have hnd2 : bucketNoDup sz rb.2 := by
          rw [hrb]
          apply redistLoop_new_noDup
          rw [hnb]
          exact emptyBucket_noDup
        exact hnd2 s hs t ht
    · have hfidx' : ¬ (idx % 2 ^ ld = low ∧ idx / 2 ^ ld < 2 ^ (gd - ld)) := by
        intro h
        exact hfidx ((hfam_iff idx hidx2).mp h)
      have hpidx : d2.bucketPageIds idx = d1.bucketPageIds idx := by
        rw [hd2pid idx, if_neg hfidx']
      rw [hpidx, if_neg (hF3 idx hidx2), if_neg (hF2 idx hidx2 hfidx)]
      exact hInvA.noDup idx (by rw [hsizeA]; exact hidx2) s hs t ht

theorem xor_two_pow_mod (a n : Nat) : (a ^^^ 2 ^ n) % 2 ^ n = a % 2 ^ n := by
  apply Nat.eq_of_testBit_eq
  intro i
  rw [Nat.testBit_mod_two_pow, Nat.testBit_mod_two_pow, Nat.testBit_xor]
  by_cases hi : i < n
  · rw [Nat.testBit_two_pow_of_ne (by omega : n ≠ i)]
    simp
  · simp [hi]

theorem xor_two_pow_bit (a n : Nat) : (a ^^^ 2 ^ n) / 2 ^ n % 2 ≠ a / 2 ^ n % 2 := by
  have hx : (a ^^^ 2 ^ n).testBit n = !(a.testBit n) := by
    rw [Nat.testBit_xor, Nat.testBit_two_pow_self, Bool.xor_true]
  rcases hb : a.testBit n with _ | _
  · rw [hb] at hx
    have h1 : (a ^^^ 2 ^ n) / 2 ^ n % 2 = 1 := (testBit_iff_div_odd _ n).mp hx
    have h2 : ¬ a / 2 ^ n % 2 = 1 := by
      intro hc
      rw [(testBit_iff_div_odd a n).mpr hc] at hb
      exact Bool.noConfusion hb
    omega
  · have h1 : a / 2 ^ n % 2 = 1 := (testBit_iff_div_odd a n).mp hb
    have h2 : ¬ (a ^^^ 2 ^ n) / 2 ^ n % 2 = 1 := by
      intro hc
      have hc2 := (testBit_iff_div_odd _ n).mpr hc
      rw [hx, hb] at hc2
      exact Bool.noConfusion hc2
    omega

/-- Writing back the routed bucket after a bucket-page `Remove` (successful or
not) preserves the invariant: the directory is untouched and the bucket's
readable set only shrinks. -/
theorem inv_setPage_bucketRemove (st : EHT K V) (k : K) (v : V) (pid : Nat)
    (hInv : Inv sz maxDepth hashFn st) :
    Inv sz maxDepth hashFn (st.setPage pid (bucketRemove sz cmp (st.pages pid) k v).1) := by
  constructor
  · exact hInv.gdLe
  · exact hInv.ldLe
  · exact hInv.i3
  · exact hInv.pidInj
  · exact hInv.fresh
  · -- I4
    intro idx hidx s hs hread
    rw [setPage_pages] at hread ⊢
    rw [setPage_dir] at hidx hread ⊢
    by_cases hpe : st.dir.bucketPageIds idx = pid
    · rw [hpe, if_pos rfl] at hread ⊢
      obtain ⟨hold, hk2, _⟩ := bucketRemove_readable_subset hread
      rw [hk2]
      have hi4 := hInv.i4 idx hidx s hs
      rw [hpe] at hi4
      exact hi4 hold
    · rw [if_neg hpe] at hread ⊢
      exact hInv.i4 idx hidx s hs hread
  · -- noDup
    intro idx hidx s hs t ht
    rw [setPage_pages]
    rw [setPage_dir] at hidx ⊢
    by_cases hpe : st.dir.bucketPageIds idx = pid
    · rw [hpe, if_pos rfl]
      intro hrs hrt hks hvs
      obtain ⟨hos, hks2, hvs2⟩ := bucketRemove_readable_subset hrs
      obtain ⟨hot, hkt2, hvt2⟩ := bucketRemove_readable_subset hrt
      have hnd := hInv.noDup idx hidx s hs t ht
      rw [hpe] at hnd
      exact hnd hos hot (by rw [← hks2, ← hkt2]; exact hks) (by rw [← hvs2, ← hvt2]; exact hvs)
    · rw [if_neg hpe]
      exact fun hrs hrt hks hvs => hInv.noDup idx hidx s hs t ht hrs hrt hks hvs

/-- Shrinking the directory when `CanShrink()` holds preserves the invariant. -/
theorem inv_decrGlobalDepth (st : EHT K V)
    (hInv : Inv sz maxDepth hashFn st) (hshrink : st.dir.canShrink = true) :
    Inv sz maxDepth hashFn { st with dir := st.dir.decrGlobalDepth } := by
  have hsub : ∀ i : Nat, i < (st.dir.decrGlobalDepth).size → i < st.dir.size := by
    intro i hi
    have h1 : (st.dir.decrGlobalDepth).size = 2 ^ (st.dir.globalDepth - 1) := rfl
    have h2 : st.dir.size = 2 ^ st.dir.globalDepth := rfl
    rw [h1] at hi
    rw [h2]
    exact Nat.lt_of_lt_of_le hi (Nat.pow_le_pow_right (by omega) (by omega))
  constructor
  · show st.dir.globalDepth - 1 ≤ maxDepth
    have h := hInv.gdLe
    omega
  · intro i hi
    have hlt := (canShrink_iff st.dir).mp hshrink i (hsub i hi)
    show st.dir.localDepths i ≤ st.dir.globalDepth - 1
    omega
  · rw [dirI3_mod_iff]
    intro i hi j hj hm
    exact (dirI3_mod_iff st.dir).mp hInv.i3 i (hsub i hi) j (hsub j hj) hm
  · intro i hi j hj hp
    exact hInv.pidInj i (hsub i hi) j (hsub j hj) hp
  · intro i hi
    exact hInv.fresh i (hsub i hi)
  · intro idx hidx s hs hread
    exact hInv.i4 idx (hsub idx hidx) s hs hread
  · intro idx hidx s hs t ht
    exact hInv.noDup idx (hsub idx hidx) s hs t ht

/-- One non-skipped iteration of `Merge` (the directory-update loop at the
decremented depth followed by the optional shrink) preserves the invariant,
and every live page id afterwards was a live page id before.  The
intermediate values are the ones the code computes, given as defining
equations; `swap` is the source's exchange of the empty bucket with its
split image. -/
theorem inv_after_merge_step (st : EHT K V) (k : K)
    (bIdx bPid bLd sIdx sPid sLd : Nat) (swap : Bool)
    (bIdxS bPidS ldm low : Nat) (d1 d2 : Directory)
    (hInv : Inv sz maxDepth hashFn st)
    (hbidx : bIdx = keyToDirectoryIndex hashFn k st.dir)
    (hbpid : bPid = st.dir.getBucketPageId bIdx)
    (hbld : bLd = st.dir.getLocalDepth bIdx)
    (hsidx : sIdx = st.dir.getSplitImageIndex bIdx)
    (hspid : sPid = st.dir.getBucketPageId sIdx)
    (hsld : sLd = st.dir.getLocalDepth sIdx)
    (hldpos : bLd ≠ 0) (hldeq : sLd = bLd)
    (hbidxS : bIdxS = if swap = true then sIdx else bIdx)
    (hbpidS : bPidS = if swap = true then sPid else bPid)
    (hldm : ldm = bLd - 1)
    (hlow : low = bIdxS &&& ((1 <<< ldm) - 1))
    (hd1 : d1 = mergeLoop ldm low bPidS (2 ^ (st.dir.globalDepth - ldm)) st.dir)
    (hd2 : d2 = if d1.canShrink = true then d1.decrGlobalDepth else d1) :
    Inv sz maxDepth hashFn { st with dir := d2 } ∧
    ∀ i, i < d2.size → ∃ j, j < st.dir.size ∧ d2.bucketPageIds i = st.dir.bucketPageIds j := by
  have hgetld : ∀ i, st.dir.getLocalDepth i = st.dir.localDepths i := fun _ => rfl
  have hgetpid : ∀ i, st.dir.getBucketPageId i = st.dir.bucketPageIds i := fun _ => rfl
  have hbidxlt : bIdx < 2 ^ st.dir.globalDepth := by
    rw [hbidx]
    exact route_lt_size k st.dir
  have hsz0 : st.dir.size = 2 ^ st.dir.globalDepth := rfl
  have hbldeq : st.dir.localDepths bIdx = bLd := by rw [hbld, hgetld]
  have hgdle : bLd ≤ st.dir.globalDepth := by
    rw [← hbldeq]
    exact hInv.ldLe bIdx (by rw [hsz0]; exact hbidxlt)
  have hldmsucc : ldm + 1 = bLd := by omega
  have hldmle : ldm ≤ st.dir.globalDepth := by omega
  have hldmbld : ldm ≤ bLd := by omega
  have hsidx_eq : sIdx = bIdx ^^^ 2 ^ ldm := by
    rw [hsidx]
    unfold Directory.getSplitImageIndex
    rw [one_shiftLeft_eq, hbldeq, ← hldm]
  have hsidxlt : sIdx < 2 ^ st.dir.globalDepth := by
    rw [hsidx_eq]
    refine Nat.xor_lt_two_pow hbidxlt ?_
    exact Nat.pow_lt_pow_right (by omega) (by omega)
  have hsld_eq : st.dir.localDepths sIdx = bLd := by
    rw [← hgetld, ← hsld, hldeq]
  have hsmod : sIdx % 2 ^ ldm = bIdx % 2 ^ ldm := by
    rw [hsidx_eq]
    exact xor_two_pow_mod bIdx ldm
  have hsbit : sIdx / 2 ^ ldm % 2 ≠ bIdx / 2 ^ ldm % 2 := by
    rw [hsidx_eq]
    exact xor_two_pow_bit bIdx ldm
  have hbidxS_facts : bIdxS < 2 ^ st.dir.globalDepth ∧ bIdxS % 2 ^ ldm = bIdx % 2 ^ ldm ∧
      st.dir.localDepths bIdxS = bLd ∧ st.dir.bucketPageIds bIdxS = bPidS := by
    rcases swap with _ | _
    · rw [hbidxS, if_neg (by simp), hbpidS, if_neg (by simp)]
      exact ⟨hbidxlt, rfl, hbldeq, (hbpid.trans (hgetpid bIdx)).symm⟩
    · rw [hbidxS, if_pos rfl, hbpidS, if_pos rfl]
      exact ⟨hsidxlt, hsmod, hsld_eq, (hspid.trans (hgetpid sIdx)).symm⟩
  obtain ⟨hbSlt, hbSmod, hbSld, hbSpid⟩ := hbidxS_facts
  have hlow_eq : low = bIdx % 2 ^ ldm := by
    rw [hlow, one_shiftLeft_eq, mask_eq_mod, hbSmod]
  have hlow_lt : low < 2 ^ ldm := by
    rw [hlow_eq]
    exact Nat.mod_lt _ (Nat.two_pow_pos _)
  have hfam_iff : ∀ j, j < 2 ^ st.dir.globalDepth →
      ((j % 2 ^ ldm = low ∧ j / 2 ^ ldm < 2 ^ (st.dir.globalDepth - ldm)) ↔
        j % 2 ^ ldm = bIdx % 2 ^ ldm) := by
    intro j hj
    rw [hlow_eq]
    constructor
    · intro h
      exact ((family_iff hldmle).mp h).2
    · intro h
      exact (family_iff hldmle).mpr ⟨hj, h⟩
  have hd1gd : d1.globalDepth = st.dir.globalDepth := by
    rw [hd1]
    exact mergeLoop_globalDepth ldm low bPidS _ st.dir
  have hd1ld : ∀ j, d1.localDepths j =
      if j % 2 ^ ldm = low ∧ j / 2 ^ ldm < 2 ^ (st.dir.globalDepth - ldm)
      then st.dir.localDepths j - 1 else st.dir.localDepths j := by
    intro j
    rw [hd1]
    exact mergeLoop_localDepths ldm low bPidS hlow_lt st.dir j
  have hd1pid : ∀ j, d1.bucketPageIds j =
      if j % 2 ^ ldm = low ∧ j / 2 ^ ldm < 2 ^ (st.dir.globalDepth - ldm)
      then bPidS else st.dir.bucketPageIds j := by
    intro j
    rw [hd1]
    exact mergeLoop_bucketPageIds ldm low bPidS hlow_lt st.dir j
  have hsz1 : d1.size = 2 ^ st.dir.globalDepth := by
    unfold Directory.size
    rw [hd1gd]
  have hfam_ld : ∀ j, j < 2 ^ st.dir.globalDepth → j % 2 ^ ldm = bIdx % 2 ^ ldm →
      st.dir.localDepths j = bLd := by
    intro j hj hm
    by_cases hbit : j / 2 ^ ldm % 2 = bIdx / 2 ^ ldm % 2
    · have hmm : j % 2 ^ bLd = bIdx % 2 ^ bLd := by
        rw [← hldmsucc]
        exact mod_pow_succ_combine hm hbit
      have h3 := (dirI3_mod_iff st.dir).mp hInv.i3 bIdx (by rw [hsz0]; exact hbidxlt)
        j (by rw [hsz0]; exact hj) (by rw [hbldeq]; exact hmm)
      rw [h3.2, hbldeq]
    · have hbit2 : j / 2 ^ ldm % 2 = sIdx / 2 ^ ldm % 2 := by
        have h1 := Nat.mod_two_eq_zero_or_one (j / 2 ^ ldm)
        have h2 := Nat.mod_two_eq_zero_or_one (bIdx / 2 ^ ldm)
        have h3 := Nat.mod_two_eq_zero_or_one (sIdx / 2 ^ ldm)
        omega
      have hmm : j % 2 ^ bLd = sIdx % 2 ^ bLd := by
        rw [← hldmsucc]
        exact mod_pow_succ_combine (by rw [hm, ← hsmod]) hbit2
      have h3 := (dirI3_mod_iff st.dir).mp hInv.i3 sIdx (by rw [hsz0]; exact hsidxlt)
        j (by rw [hsz0]; exact hj) (by rw [hsld_eq]; exact hmm)
      rw [h3.2, hsld_eq]
  have hout_ne : ∀ j, j < 2 ^ st.dir.globalDepth → ¬ (j % 2 ^ ldm = bIdx % 2 ^ ldm) →
      st.dir.bucketPageIds j ≠ bPidS := by
    intro j hj hnm hcontra
    have hpj := hInv.pidInj j (by rw [hsz0]; exact hj) bIdxS (by rw [hsz0]; exact hbSlt)
      (by rw [hcontra, hbSpid])
    have hld_j : st.dir.localDepths j = bLd := by rw [hpj.1, hbSld]
    have hpj2 := hpj.2
    rw [hld_j] at hpj2
    have hmod : j % 2 ^ ldm = bIdxS % 2 ^ ldm := by
      have h1 := mod_mod_pow_le hldmbld j
      have h2 := mod_mod_pow_le hldmbld bIdxS
      rw [← h1, ← h2, hpj2]
    exact hnm (by rw [hmod, hbSmod])
  have hInv1 : Inv sz maxDepth hashFn { st with dir := d1 } := by
    constructor
    · show d1.globalDepth ≤ maxDepth
      rw [hd1gd]
      exact hInv.gdLe
    · -- ldLe
      intro i hi
      have hi2 : i < 2 ^ st.dir.globalDepth := by rw [← hsz1]; exact hi
      show d1.localDepths i ≤ d1.globalDepth
      rw [hd1ld i, hd1gd]
      by_cases hfam : i % 2 ^ ldm = low ∧ i / 2 ^ ldm < 2 ^ (st.dir.globalDepth - ldm)
      · rw [if_pos hfam]
        have := hInv.ldLe i (by rw [hsz0]; exact hi2)
        omega
      · rw [if_neg hfam]
        exact hInv.ldLe i (by rw [hsz0]; exact hi2)
    · -- I3
      rw [dirI3_mod_iff]
      intro i hi j hj hm
      have hi2 : i < 2 ^ st.dir.globalDepth := by rw [← hsz1]; exact hi
      have hj2 : j < 2 ^ st.dir.globalDepth := by rw [← hsz1]; exact hj
      have hm2 : j % 2 ^ d1.localDepths i = i % 2 ^ d1.localDepths i := hm
      show d1.bucketPageIds j = d1.bucketPageIds i ∧ d1.localDepths j = d1.localDepths i
      by_cases hfi : i % 2 ^ ldm = bIdx % 2 ^ ldm
      · have hfi' := (hfam_iff i hi2).mpr hfi
        have hldi : d1.localDepths i = ldm := by
          rw [hd1ld i, if_pos hfi', hfam_ld i hi2 hfi]
          omega
        rw [hldi] at hm2
        have hfj : j % 2 ^ ldm = bIdx % 2 ^ ldm := by rw [hm2, hfi]
        have hfj' := (hfam_iff j hj2).mpr hfj
        have hldj : d1.localDepths j = ldm := by
          rw [hd1ld j, if_pos hfj', hfam_ld j hj2 hfj]
          omega
        rw [hd1pid i, hd1pid j, if_pos hfi', if_pos hfj', hldi, hldj]
        exact ⟨rfl, rfl⟩
      · have hfi' : ¬ (i % 2 ^ ldm = low ∧ i / 2 ^ ldm < 2 ^ (st.dir.globalDepth - ldm)) :=
          fun h => hfi ((hfam_iff i hi2).mp h)
        have hldi : d1.localDepths i = st.dir.localDepths i := by
          rw [hd1ld i, if_neg hfi']
        rw [hldi] at hm2
        have h3 := (dirI3_mod_iff st.dir).mp hInv.i3 i (by rw [hsz0]; exact hi2)
          j (by rw [hsz0]; exact hj2) hm2
        have hfj : ¬ (j % 2 ^ ldm = bIdx % 2 ^ ldm) := by
          intro hfjm
          have hldj_b : st.dir.localDepths j = bLd := hfam_ld j hj2 hfjm
          have hldi_b : st.dir.localDepths i = bLd := by rw [← h3.2, hldj_b]
          rw [hldi_b] at hm2
          have hmm : i % 2 ^ ldm = j % 2 ^ ldm := by
            have h1 := mod_mod_pow_le hldmbld i
            have h2 := mod_mod_pow_le hldmbld j
            rw [← h1, ← h2, hm2]
          exact hfi (by rw [hmm, hfjm])
        have hfj' : ¬ (j % 2 ^ ldm = low ∧ j / 2 ^ ldm < 2 ^ (st.dir.globalDepth - ldm)) :=
          fun h => hfj ((hfam_iff j hj2).mp h)
        rw [hd1pid i, hd1pid j, if_neg hfi', if_neg hfj', hldi, hd1ld j, if_neg hfj']
        exact ⟨h3.1, h3.2⟩
    · -- pidInj
      intro i hi j hj hp
      have hi2 : i < 2 ^ st.dir.globalDepth := by rw [← hsz1]; exact hi
      have hj2 : j < 2 ^ st.dir.globalDepth := by rw [← hsz1]; exact hj
      have hp2 : d1.bucketPageIds i = d1.bucketPageIds j := hp
      show d1.localDepths i = d1.localDepths j ∧
        i % 2 ^ d1.localDepths i = j % 2 ^ d1.localDepths i
      by_cases hfi : i % 2 ^ ldm = bIdx % 2 ^ ldm <;>
        by_cases hfj : j % 2 ^ ldm = bIdx % 2 ^ ldm
      · have hfi' := (hfam_iff i hi2).mpr hfi
        have hfj' := (hfam_iff j hj2).mpr hfj
        have hldi : d1.localDepths i = ldm := by
          rw [hd1ld i, if_pos hfi', hfam_ld i hi2 hfi]
          omega
        have hldj : d1.localDepths j = ldm := by
          rw [hd1ld j, if_pos hfj', hfam_ld j hj2 hfj]
          omega
        rw [hldi, hldj, hfi, hfj]
        exact ⟨rfl, rfl⟩
      · have hfi' := (hfam_iff i hi2).mpr hfi
        have hfj' : ¬ (j % 2 ^ ldm = low ∧ j / 2 ^ ldm < 2 ^ (st.dir.globalDepth - ldm)) :=
          fun h => hfj ((hfam_iff j hj2).mp h)
        rw [hd1pid i, if_pos hfi', hd1pid j, if_neg hfj'] at hp2
        exact absurd hp2.symm (hout_ne j hj2 hfj)
      · have hfi' : ¬ (i % 2 ^ ldm = low ∧ i / 2 ^ ldm < 2 ^ (st.dir.globalDepth - ldm)) :=
          fun h => hfi ((hfam_iff i hi2).mp h)
        have hfj' := (hfam_iff j hj2).mpr hfj
        rw [hd1pid i, if_neg hfi', hd1pid j, if_pos hfj'] at hp2
        exact absurd hp2 (hout_ne i hi2 hfi)
      · have hfi' : ¬ (i % 2 ^ ldm = low ∧ i / 2 ^ ldm < 2 ^ (st.dir.globalDepth - ldm)) :=
          fun h => hfi ((hfam_iff i hi2).mp h)
        have hfj' : ¬ (j % 2 ^ ldm = low ∧ j / 2 ^ ldm < 2 ^ (st.dir.globalDepth - ldm)) :=
          fun h => hfj ((hfam_iff j hj2).mp h)
        rw [hd1pid i, if_neg hfi', hd1pid j, if_neg hfj'] at hp2
        have hbase := hInv.pidInj i (by rw [hsz0]; exact hi2) j (by rw [hsz0]; exact hj2) hp2
        rw [hd1ld i, if_neg hfi', hd1ld j, if_neg hfj']
        exact hbase
    · -- fresh
      intro i hi
      have hi2 : i < 2 ^ st.dir.globalDepth := by rw [← hsz1]; exact hi
      show d1.bucketPageIds i < st.nextPageId
      rw [hd1pid i]
      by_cases hfam : i % 2 ^ ldm = low ∧ i / 2 ^ ldm < 2 ^ (st.dir.globalDepth - ldm)
      · rw [if_pos hfam, ← hbSpid]
        exact hInv.fresh bIdxS (by rw [hsz0]; exact hbSlt)
      · rw [if_neg hfam]
        exact hInv.fresh i (by rw [hsz0]; exact hi2)
    · -- I4
      intro idx hidx s hs hread
      have hidx2 : idx < 2 ^ st.dir.globalDepth := by rw [← hsz1]; exact hidx
      by_cases hfidx : idx % 2 ^ ldm = bIdx % 2 ^ ldm
      · have hfidx' := (hfam_iff idx hidx2).mpr hfidx
        have hldidx : d1.localDepths idx = ldm := by
          rw [hd1ld idx, if_pos hfidx', hfam_ld idx hidx2 hfidx]
          omega
        have hpididx : d1.bucketPageIds idx = bPidS := by
          rw [hd1pid idx, if_pos hfidx']
        have hread2 : (st.pages bPidS).readable s = true := by
          rw [← hpididx]
          exact hread
        have hbase := hInv.i4 bIdxS (by rw [hsz0]; exact hbSlt) s hs
          (by rw [hbSpid]; exact hread2)
        rw [hbSpid, hbSld] at hbase
        show ehtHash hashFn ((st.pages (d1.bucketPageIds idx)).keyAt s) % 2 ^ d1.localDepths idx
          = idx % 2 ^ d1.localDepths idx
        rw [hpididx, hldidx]
        have hmodb : ehtHash hashFn ((st.pages bPidS).keyAt s) % 2 ^ ldm = bIdxS % 2 ^ ldm := by
          have h1 := mod_mod_pow_le hldmbld (ehtHash hashFn ((st.pages bPidS).keyAt s))
          have h2 := mod_mod_pow_le hldmbld bIdxS
          rw [← h1, ← h2, hbase]
        rw [hmodb, hbSmod, ← hfidx]
      · have hfidx' : ¬ (idx % 2 ^ ldm = low ∧ idx / 2 ^ ldm < 2 ^ (st.dir.globalDepth - ldm)) :=
          fun h => hfidx ((hfam_iff idx hidx2).mp h)
        have hldidx : d1.localDepths idx = st.dir.localDepths idx := by
          rw [hd1ld idx, if_neg hfidx']
        have hpididx : d1.bucketPageIds idx = st.dir.bucketPageIds idx := by
          rw [hd1pid idx, if_neg hfidx']
        have hread2 : (st.pages (st.dir.bucketPageIds idx)).readable s = true := by
          rw [← hpididx]
          exact hread
        have hbase := hInv.i4 idx (by rw [hsz0]; exact hidx2) s hs hread2
        show ehtHash hashFn ((st.pages (d1.bucketPageIds idx)).keyAt s) % 2 ^ d1.localDepths idx
          = idx % 2 ^ d1.localDepths idx
        rw [hpididx, hldidx]
        exact hbase
    · -- noDup
      intro idx hidx s hs t ht
      have hidx2 : idx < 2 ^ st.dir.globalDepth := by rw [← hsz1]; exact hidx
      show (st.pages (d1.bucketPageIds idx)).readable s = true →
        (st.pages (d1.bucketPageIds idx)).readable t = true →
        (st.pages (d1.bucketPageIds idx)).keyAt s = (st.pages (d1.bucketPageIds idx)).keyAt t →
        (st.pages (d1.bucketPageIds idx)).valueAt s = (st.pages (d1.bucketPageIds idx)).valueAt t →
        s = t
      by_cases hfidx : idx % 2 ^ ldm = bIdx % 2 ^ ldm
      · have hfidx' := (hfam_iff idx hidx2).mpr hfidx
        have hpididx : d1.bucketPageIds idx = bPidS := by
          rw [hd1pid idx, if_pos hfidx']
        rw [hpididx, ← hbSpid]
        exact hInv.noDup bIdxS (by rw [hsz0]; exact hbSlt) s hs t ht
      · have hfidx' : ¬ (idx % 2 ^ ldm = low ∧ idx / 2 ^ ldm < 2 ^ (st.dir.globalDepth - ldm)) :=
          fun h => hfidx ((hfam_iff idx hidx2).mp h)
        have hpididx : d1.bucketPageIds idx = st.dir.bucketPageIds idx := by
          rw [hd1pid idx, if_neg hfidx']
        rw [hpididx]
        exact hInv.noDup idx (by rw [hsz0]; exact hidx2) s hs t ht
  have hpids1 : ∀ i, i < d1.size → ∃ j, j < st.dir.size ∧
      d1.bucketPageIds i = st.dir.bucketPageIds j := by
    intro i hi
    have hi2 : i < 2 ^ st.dir.globalDepth := by rw [← hsz1]; exact hi
    rw [hd1pid i]
    by_cases hfam : i % 2 ^ ldm = low ∧ i / 2 ^ ldm < 2 ^ (st.dir.globalDepth - ldm)
    · rw [if_pos hfam]
      exact ⟨bIdxS, by rw [hsz0]; exact hbSlt, hbSpid.symm⟩
    · rw [if_neg hfam]
      exact ⟨i, by rw [hsz0]; exact hi2, rfl⟩
  rw [hd2]
  by_cases hcs : d1.canShrink = true
  · rw [if_pos hcs]
    refine ⟨inv_decrGlobalDepth { st with dir := d1 } hInv1 hcs, ?_⟩
    intro i hi
    have hi1 : i < d1.size := by
      have h1 : (d1.decrGlobalDepth).size = 2 ^ (d1.globalDepth - 1) := rfl
      have h2 : d1.size = 2 ^ d1.globalDepth := rfl
      rw [h1] at hi
      rw [h2]
      exact Nat.lt_of_lt_of_le hi (Nat.pow_le_pow_right (by omega) (by omega))
    exact hpids1 i hi1
  · rw [if_neg hcs]
    exact ⟨hInv1, hpids1⟩

/-- The `while(true)` loop of `Merge` preserves the invariant, never touches
the bucket pages or the allocator, and only repoints live slots at page ids
that were already live. -/
theorem mergeGo_inv (k : K) (fuel : Nat) :
    ∀ (st : EHT K V) (dirty : Bool), Inv sz maxDepth hashFn st →
      Inv sz maxDepth hashFn (mergeGo sz hashFn k fuel st dirty).1 ∧
      (mergeGo sz hashFn k fuel st dirty).1.pages = st.pages ∧
      (mergeGo sz hashFn k fuel st dirty).1.nextPageId = st.nextPageId ∧
      (mergeGo sz hashFn k fuel st dirty).1.dirPageId = st.dirPageId ∧
      ∀ i, i < (mergeGo sz hashFn k fuel st dirty).1.dir.size →
        ∃ j, j < st.dir.size ∧
          (mergeGo sz hashFn k fuel st dirty).1.dir.bucketPageIds i = st.dir.bucketPageIds j := by
  induction fuel with
  | zero =>
    intro st dirty hInv
    exact ⟨hInv, rfl, rfl, rfl, fun i hi => ⟨i, hi, rfl⟩⟩
  | succ n ih =>
    intro st dirty hInv
    simp only [mergeGo]
    split
    · exact ⟨hInv, rfl, rfl, rfl, fun i hi => ⟨i, hi, rfl⟩⟩
    · rename_i hskip
      push_neg at hskip
      obtain ⟨_, hld0, _, hldeq⟩ := hskip
      have hldS : (if (bucketIsEmpty sz
            (st.pages (st.dir.getBucketPageId (keyToDirectoryIndex hashFn k st.dir)))) = true
          then st.dir.getLocalDepth
            (st.dir.getSplitImageIndex (keyToDirectoryIndex hashFn k st.dir))
          else st.dir.getLocalDepth (keyToDirectoryIndex hashFn k st.dir)) - 1
          = st.dir.getLocalDepth (keyToDirectoryIndex hashFn k st.dir) - 1 := by
        by_cases hsw : bucketIsEmpty sz
            (st.pages (st.dir.getBucketPageId (keyToDirectoryIndex hashFn k st.dir))) = true
        · rw [if_pos hsw, hldeq]
        · rw [if_neg hsw]
      have hstep := inv_after_merge_step st k
        (keyToDirectoryIndex hashFn k st.dir)
        (st.dir.getBucketPageId (keyToDirectoryIndex hashFn k st.dir))
        (st.dir.getLocalDepth (keyToDirectoryIndex hashFn k st.dir))
        (st.dir.getSplitImageIndex (keyToDirectoryIndex hashFn k st.dir))
        (st.dir.getBucketPageId (st.dir.getSplitImageIndex (keyToDirectoryIndex hashFn k st.dir)))
        (st.dir.getLocalDepth (st.dir.getSplitImageIndex (keyToDirectoryIndex hashFn k st.dir)))
        (bucketIsEmpty sz (st.pages (st.dir.getBucketPageId (keyToDirectoryIndex hashFn k st.dir))))
        _ _ _ _ _ _ hInv rfl rfl rfl rfl rfl rfl hld0 hldeq rfl rfl hldS rfl rfl rfl
      refine ⟨(ih _ true hstep.1).1, (ih _ true hstep.1).2.1, (ih _ true hstep.1).2.2.1,
        (ih _ true hstep.1).2.2.2.1, ?_⟩
      intro i hi
      obtain ⟨j1, hj1, he1⟩ := (ih _ true hstep.1).2.2.2.2 i hi
      obtain ⟨j2, hj2, he2⟩ := hstep.2 j1 hj1
      exact ⟨j2, hj2, he1.trans he2⟩

/-- `Remove` preserves the invariant. -/
theorem ehtRemove_preserves_inv (fuel : Nat) (st : EHT K V) (k : K) (v : V)
    (hInv : Inv sz maxDepth hashFn st) :
    Inv sz maxDepth hashFn (ehtRemove sz cmp hashFn fuel st k v).st := by
  simp only [ehtRemove]
  split
  · exact inv_setPage_bucketRemove st k v _ hInv
  · simp only [ehtMerge]
    exact (mergeGo_inv k fuel _ false (inv_setPage_bucketRemove st k v _ hInv)).1

/-- `Insert` and `SplitInsert` preserve the invariant (joint fuel induction
over the mutual retry recursion). -/
theorem insert_split_preserve_inv (fuel : Nat) :
    (∀ (st : EHT K V) (k : K) (v : V), Inv sz maxDepth hashFn st →
      Inv sz maxDepth hashFn (ehtInsert sz cmp maxDepth hashFn fuel st k v).st) ∧
    (∀ (st : EHT K V) (k : K) (v : V), Inv sz maxDepth hashFn st →
      Inv sz maxDepth hashFn (ehtSplitInsert sz cmp maxDepth hashFn fuel st k v).st) := by
  induction fuel with
  | zero => exact ⟨fun st k v h => h, fun st k v h => h⟩
  | succ n ih =>
    refine ⟨?_, ?_⟩
    · intro st k v hInv
      simp only [ehtInsert]
      split
      · exact inv_setPage_bucketInsert st k v hInv
      · exact ih.2 st k v hInv
    · intro st k v hInv
      simp only [ehtSplitInsert]
      split
      · exact hInv
      · split
        · exact hInv
        · split
          · exact hInv
          · rename_i hstuck
            split
            · rename_i hc
              split
              · refine ih.1 _ k v ?_
                exact inv_after_split st k v _ _ _ _ _ _ _ _ _ _ hInv hstuck
                  rfl rfl (if_pos hc).symm rfl rfl rfl rfl rfl rfl rfl
              · refine ih.1 _ k v ?_
                refine inv_incrGlobalDepth st hInv ?_
                rcases hb : Directory.canIncrGlobalDepth maxDepth st.dir with _ | _
                · exact absurd ⟨hc, hb⟩ hstuck
                · unfold Directory.canIncrGlobalDepth at hb
                  exact of_decide_eq_true hb
            · rename_i hc
              split
              · refine ih.1 _ k v ?_
                exact inv_after_split st k v _ _ _ _ _ _ _ _ _ _ hInv hstuck
                  rfl rfl (if_neg hc).symm rfl rfl rfl rfl rfl rfl rfl
              · refine ih.1 _ k v ?_
                exact hInv

/-- Every reachable state satisfies the invariant. -/
theorem reach_inv {st : EHT K V} (h : Reach sz cmp maxDepth hashFn st) :
    Inv sz maxDepth hashFn st := by
  induction h with
  | init => exact inv_init
  | insert fuel k v _ ih => exact (insert_split_preserve_inv fuel).1 _ k v ih
  | remove fuel k v _ ih => exact ehtRemove_preserves_inv fuel _ k v ih

/-- A successful `Insert` leaves the inserted pair readable in the bucket the
key routes to (joint fuel induction with `SplitInsert`). -/
theorem insert_ok_contains (fuel : Nat) :
    (∀ (st : EHT K V) (k : K) (v : V),
      (ehtInsert sz cmp maxDepth hashFn fuel st k v).ok = true →
      ∃ s, s < sz ∧
        ((ehtInsert sz cmp maxDepth hashFn fuel st k v).st.pages
          (keyToPageId hashFn k
            (ehtInsert sz cmp maxDepth hashFn fuel st k v).st.dir)).readable s = true ∧
        ((ehtInsert sz cmp maxDepth hashFn fuel st k v).st.pages
          (keyToPageId hashFn k
            (ehtInsert sz cmp maxDepth hashFn fuel st k v).st.dir)).keyAt s = k ∧
        ((ehtInsert sz cmp maxDepth hashFn fuel st k v).st.pages
          (keyToPageId hashFn k
            (ehtInsert sz cmp maxDepth hashFn fuel st k v).st.dir)).valueAt s = v) ∧
    (∀ (st : EHT K V) (k : K) (v : V),
      (ehtSplitInsert sz cmp maxDepth hashFn fuel st k v).ok = true →
      ∃ s, s < sz ∧
        ((ehtSplitInsert sz cmp maxDepth hashFn fuel st k v).st.pages
          (keyToPageId hashFn k
            (ehtSplitInsert sz cmp maxDepth hashFn fuel st k v).st.dir)).readable s = true ∧
        ((ehtSplitInsert sz cmp maxDepth hashFn fuel st k v).st.pages
          (keyToPageId hashFn k
            (ehtSplitInsert sz cmp maxDepth hashFn fuel st k v).st.dir)).keyAt s = k ∧
        ((ehtSplitInsert sz cmp maxDepth hashFn fuel st k v).st.pages
          (keyToPageId hashFn k
            (ehtSplitInsert sz cmp maxDepth hashFn fuel st k v).st.dir)).valueAt s = v) := by
  induction fuel with
  | zero =>
    exact ⟨fun st k v h => Bool.noConfusion h, fun st k v h => Bool.noConfusion h⟩
  | succ n ih =>
    refine ⟨?_, ?_⟩
    · intro st k v hok
      simp only [ehtInsert] at hok ⊢
      split at hok
      · rename_i hfull
        rw [if_pos hfull]
        obtain ⟨i, hi, hfree, hkey, hval, hread, hocc, hnodup⟩ := bucketInsert_true_parts hok
        have hpg : ((st.setPage
              (st.dir.getBucketPageId (keyToDirectoryIndex hashFn k st.dir))
              (bucketInsert sz cmp
                (st.pages (st.dir.getBucketPageId (keyToDirectoryIndex hashFn k st.dir)))
                k v).1).pages
            (keyToPageId hashFn k
              (st.setPage (st.dir.getBucketPageId (keyToDirectoryIndex hashFn k st.dir))
                (bucketInsert sz cmp
                  (st.pages (st.dir.getBucketPageId (keyToDirectoryIndex hashFn k st.dir)))
                  k v).1).dir))
            = (bucketInsert sz cmp
                (st.pages (st.dir.getBucketPageId (keyToDirectoryIndex hashFn k st.dir)))
                k v).1 := by
          rw [setPage_pages, setPage_dir,
            if_pos (show keyToPageId hashFn k st.dir
              = st.dir.getBucketPageId (keyToDirectoryIndex hashFn k st.dir) from rfl)]
        refine ⟨i, hi, ?_, ?_, ?_⟩
        · show ((st.setPage _ _).pages _).readable i = true
          rw [hpg, hread i, if_pos rfl]
        · show ((st.setPage _ _).pages _).keyAt i = k
          rw [hpg, hkey i, if_pos rfl]
        · show ((st.setPage _ _).pages _).valueAt i = v
          rw [hpg, hval i, if_pos rfl]
      · rename_i hfull
        rw [if_neg hfull]
        exact ih.2 st k v hok
    · intro st k v hok
      simp only [ehtSplitInsert] at hok ⊢
      split at hok
      · exact Bool.noConfusion hok
      · split at hok
        · exact Bool.noConfusion hok
        · split at hok
          · exact Bool.noConfusion hok
          · rename_i h1 h2 h3
            rw [if_neg h1, if_neg h2, if_neg h3]
            split at hok
            · rename_i hc
              rw [if_pos hc]
              split at hok
              · rename_i hlt
                rw [if_pos hlt]
                exact ih.1 _ k v hok
              · rename_i hlt
                rw [if_neg hlt]
                exact ih.1 _ k v hok
            · rename_i hc
              rw [if_neg hc]
              split at hok
              · rename_i hlt
                rw [if_pos hlt]
                exact ih.1 _ k v hok
              · rename_i hlt
                rw [if_neg hlt]
                exact ih.1 _ k v hok

/-- Under the invariant, any live slot whose bucket holds key `k` in a
readable slot must point at the very page `k` routes to. -/
theorem key_location (st : EHT K V) (k : K)
    (hInv : Inv sz maxDepth hashFn st)
    (idx : Nat) (hidx : idx < st.dir.size) (s : Nat) (hs : s < sz)
    (hr : (st.pages (st.dir.bucketPageIds idx)).readable s = true)
    (hk : (st.pages (st.dir.bucketPageIds idx)).keyAt s = k) :
    st.dir.bucketPageIds idx = keyToPageId hashFn k st.dir := by
  have hi4 := hInv.i4 idx hidx s hs hr
  rw [hk] at hi4
  have hldle := hInv.ldLe idx hidx
  have hrmod : keyToDirectoryIndex hashFn k st.dir % 2 ^ st.dir.localDepths idx
      = idx % 2 ^ st.dir.localDepths idx := by
    rw [route_mod, mod_mod_pow_le hldle, hi4]
  have h3 := (dirI3_mod_iff st.dir).mp hInv.i3 idx hidx
    (keyToDirectoryIndex hashFn k st.dir) (route_lt_size k st.dir) hrmod
  exact h3.1.symm

/-- Under the invariant and a lawful comparator, a successful bucket-level
remove leaves no copy of the pair anywhere in the table. -/
theorem remove_success_not_contains (st : EHT K V) (k : K) (v : V)
    (hInv : Inv sz maxDepth hashFn st)
    (hcmp : ∀ a b : K, cmp a b = cmp b a ↔ a = b)
    (hok : (bucketRemove sz cmp
        (st.pages (st.dir.getBucketPageId (keyToDirectoryIndex hashFn k st.dir)))
        k v).2 = true) :
    ¬ containsAnywhere sz
      (st.setPage (st.dir.getBucketPageId (keyToDirectoryIndex hashFn k st.dir))
        (bucketRemove sz cmp
          (st.pages (st.dir.getBucketPageId (keyToDirectoryIndex hashFn k st.dir)))
          k v).1) k v := by
  rintro ⟨idx, hidx, s, hs, hr, hk, hv⟩
  obtain ⟨i, hi, hri, hmi, hvi, hkeyE, hvalE, hoccE, hreadE⟩ := bucketRemove_true_parts hok
  rw [setPage_dir] at hidx
  rw [setPage_pages, setPage_dir] at hr hk hv
  by_cases hpe : st.dir.bucketPageIds idx
      = st.dir.getBucketPageId (keyToDirectoryIndex hashFn k st.dir)
  · rw [hpe, if_pos rfl] at hr hk hv
    rw [hreadE s] at hr
    by_cases hsi : s = i
    · rw [if_pos hsi] at hr
      exact Bool.noConfusion hr
    · rw [if_neg hsi] at hr
      rw [hkeyE] at hk
      rw [hvalE] at hv
      have hkeyI : (st.pages
          (st.dir.getBucketPageId (keyToDirectoryIndex hashFn k st.dir))).keyAt i = k :=
        (hcmp _ _).mp hmi
      have hnd := hInv.noDup idx hidx s hs i hi
      rw [hpe] at hnd
      exact hsi (hnd hr hri (by rw [hk, hkeyI]) (by rw [hv, ← hvi]))
  · rw [if_neg hpe] at hr hk
    exact hpe (key_location st k hInv idx hidx s hs hr hk)

/-- Under the invariant and a lawful comparator, after a successful `Remove`
(which runs `Merge` on its way out) a `GetValue` of the same key no longer
returns the removed value. -/
theorem remove_get_not_mem (fuel2 : Nat) (st1 : EHT K V) (k : K) (v : V)
    (hInv : Inv sz maxDepth hashFn st1)
    (hcmp : ∀ a b : K, cmp a b = cmp b a ↔ a = b)
    (hrem : (ehtRemove sz cmp hashFn fuel2 st1 k v).ok = true) :
    v ∉ (ehtGetValue sz cmp hashFn (ehtRemove sz cmp hashFn fuel2 st1 k v).st k).res := by
  simp only [ehtRemove] at hrem ⊢
  by_cases hfail : (bucketRemove sz cmp
      (st1.pages (st1.dir.getBucketPageId (keyToDirectoryIndex hashFn k st1.dir)))
      k v).2 = false
  · rw [if_pos hfail] at hrem
    exact Bool.noConfusion hrem
  · rw [if_neg hfail]
    have hok : (bucketRemove sz cmp
        (st1.pages (st1.dir.getBucketPageId (keyToDirectoryIndex hashFn k st1.dir)))
        k v).2 = true := by
      rcases hx : (bucketRemove sz cmp
          (st1.pages (st1.dir.getBucketPageId (keyToDirectoryIndex hashFn k st1.dir)))
          k v).2 with _ | _
      · exact absurd hx hfail
      · rfl
    have hnc := remove_success_not_contains st1 k v hInv hcmp hok
    have hInvR := @inv_setPage_bucketRemove K V _ _ _ sz cmp maxDepth hashFn st1 k v
      (st1.dir.getBucketPageId (keyToDirectoryIndex hashFn k st1.dir)) hInv
    simp only [ehtMerge]
    intro hmemF
    have hmem2 : v ∈ (bucketGetValue sz cmp
        ((mergeGo sz hashFn k fuel2
            (st1.setPage (st1.dir.getBucketPageId (keyToDirectoryIndex hashFn k st1.dir))
              (bucketRemove sz cmp
                (st1.pages (st1.dir.getBucketPageId (keyToDirectoryIndex hashFn k st1.dir)))
                k v).1) false).1.pages
          (keyToPageId hashFn k
            (mergeGo sz hashFn k fuel2
              (st1.setPage (st1.dir.getBucketPageId (keyToDirectoryIndex hashFn k st1.dir))
                (bucketRemove sz cmp
                  (st1.pages (st1.dir.getBucketPageId (keyToDirectoryIndex hashFn k st1.dir)))
                  k v).1) false).1.dir)) k).1 := hmemF
    obtain ⟨t, ht, hrt, hmt, hvt⟩ := mem_bucketGetValue.mp hmem2
    have hkt := (hcmp _ _).mp hmt
    have hMG := mergeGo_inv k fuel2
      (st1.setPage (st1.dir.getBucketPageId (keyToDirectoryIndex hashFn k st1.dir))
        (bucketRemove sz cmp
          (st1.pages (st1.dir.getBucketPageId (keyToDirectoryIndex hashFn k st1.dir)))
          k v).1) false hInvR
    obtain ⟨j, hj, hpe⟩ := hMG.2.2.2.2
      (keyToDirectoryIndex hashFn k
        (mergeGo sz hashFn k fuel2
          (st1.setPage (st1.dir.getBucketPageId (keyToDirectoryIndex hashFn k st1.dir))
            (bucketRemove sz cmp
              (st1.pages (st1.dir.getBucketPageId (keyToDirectoryIndex hashFn k st1.dir)))
              k v).1) false).1.dir)
      (route_lt_size k _)
    apply hnc
    refine ⟨j, hj, t, ht, ?_, ?_, ?_⟩
    · rw [← hpe, ← congrFun hMG.2.1]
      exact hrt
    · rw [← hpe, ← congrFun hMG.2.1]
      exact hkt
    · rw [← hpe, ← congrFun hMG.2.1]
      exact hvt

theorem countUnpins_append (pid : Nat) (A B : List BPEvent) :
    countUnpins pid (A ++ B) = countUnpins pid A + countUnpins pid B := by
  unfold countUnpins
  rw [List.filter_append, List.length_append]

theorem countFetches_append (pid : Nat) (A B : List BPEvent) :
    countFetches pid (A ++ B) = countFetches pid A + countFetches pid B := by
  unfold countFetches
  rw [List.filter_append, List.length_append]

theorem pinBalanced_append {A B : List BPEvent} (hA : pinBalanced A) (hB : pinBalanced B) :
    pinBalanced (A ++ B) := by
  intro pid
  rw [countUnpins_append, countFetches_append, hA pid, hB pid]

theorem pinBalanced_nil : pinBalanced [] := fun _ => rfl

theorem pinBalanced_pair (a b : Nat) (d1 d2 : Bool) :
    pinBalanced [BPEvent.fetchPage a, BPEvent.fetchPage b,
      BPEvent.unpinPage a d1, BPEvent.unpinPage b d2] := by
  intro pid
  by_cases ha : a = pid <;> by_cases hb : b = pid <;>
    simp [countUnpins, countFetches, isUnpinOf, isFetchOf, List.filter, ha, hb]

theorem pinBalanced_new_triple (a b c : Nat) (d1 d2 d3 : Bool) :
    pinBalanced [BPEvent.fetchPage a, BPEvent.fetchPage b, BPEvent.newPage c,
      BPEvent.unpinPage c d1, BPEvent.unpinPage a d2, BPEvent.unpinPage b d3] := by
  intro pid
  by_cases ha : a = pid <;> by_cases hb : b = pid <;> by_cases hc : c = pid <;>
    simp [countUnpins, countFetches, isUnpinOf, isFetchOf, List.filter, ha, hb, hc]

theorem pinBalanced_merge_prefix (a b a2 b2 : Nat) (d1 d2 : Bool)
    (h : (a2 = a ∧ b2 = b) ∨ (a2 = b ∧ b2 = a)) :
    pinBalanced [BPEvent.fetchPage a, BPEvent.fetchPage b,
      BPEvent.unpinPage a2 d1, BPEvent.unpinPage b2 d2, BPEvent.deletePage b2] := by
  intro pid
  rcases h with ⟨h1, h2⟩ | ⟨h1, h2⟩ <;> rw [h1, h2] <;>
    by_cases ha : a = pid <;> by_cases hb : b = pid <;>
      simp [countUnpins, countFetches, isUnpinOf, isFetchOf, List.filter, ha, hb]

theorem pinBalanced_wrap (a : Nat) (B : List BPEvent) (d : Bool)
    (hB : pinBalanced B) :
    pinBalanced ([BPEvent.fetchPage a] ++ B ++ [BPEvent.unpinPage a d]) := by
  intro pid
  rw [countUnpins_append, countUnpins_append, countFetches_append, countFetches_append]
  have h1 : countUnpins pid [BPEvent.fetchPage a] = 0 := by
    simp [countUnpins, isUnpinOf, List.filter]
  have h2 : countFetches pid [BPEvent.unpinPage a d] = 0 := by
    simp [countFetches, isFetchOf, List.filter]
  have h3 : countUnpins pid [BPEvent.unpinPage a d] = countFetches pid [BPEvent.fetchPage a] := by
    by_cases ha : a = pid <;>
      simp [countUnpins, countFetches, isUnpinOf, isFetchOf, List.filter, ha]
  have h4 := hB pid
  omega

theorem not_mutatesPage_self (st : EHT K V) (pid : Nat) : ¬ mutatesPage st st pid := by
  intro h
  unfold mutatesPage at h
  split at h <;> exact h rfl

theorem ehtNewPage_pages (st : EHT K V) (q : Nat) (h : q ≠ st.nextPageId) :
    (ehtNewPage st).1.pages q = st.pages q := by
  unfold ehtNewPage
  simp [h]

/-- A page untouched by a split (neither the split bucket nor the freshly
allocated one) keeps its contents. -/
theorem split_pages_eq (st : EHT K V) (d1 d2 : Directory) (P : Nat)
    (rb : Bucket K V × Bucket K V) (pid : Nat)
    (hnew : pid ≠ st.nextPageId) (hold : pid ≠ P) :
    st.pages pid =
      ((({ (ehtNewPage { st with dir := d1 }).1 with dir := d2 }).setPage P rb.1).setPage
        (ehtNewPage { st with dir := d1 }).2 rb.2).pages pid := by
  rw [setPage_pages, if_neg (show ¬ pid = (ehtNewPage { st with dir := d1 }).2 from hnew),
    setPage_pages, if_neg hold]
  exact (ehtNewPage_pages { st with dir := d1 } pid (fun hcon => hnew hcon)).symm

/-- `Merge`'s loop never touches the pages, the allocator or the directory
page id. -/
theorem mergeGo_frame (k : K) (fuel : Nat) :
    ∀ (st : EHT K V) (dirty : Bool),
      (mergeGo sz hashFn k fuel st dirty).1.pages = st.pages ∧
      (mergeGo sz hashFn k fuel st dirty).1.dirPageId = st.dirPageId ∧
      (mergeGo sz hashFn k fuel st dirty).1.nextPageId = st.nextPageId := by
  induction fuel with
  | zero => exact fun st dirty => ⟨rfl, rfl, rfl⟩
  | succ n ih =>
    intro st dirty
    simp only [mergeGo]
    split
    · exact ⟨rfl, rfl, rfl⟩
    · exact ih _ true

/-- Once the `dirty_directory` accumulator of `Merge` is true it stays true. -/
theorem mergeGo_dirty_true (k : K) (fuel : Nat) :
    ∀ st : EHT K V, (mergeGo sz hashFn k fuel st true).2.1 = true := by
  induction fuel with
  | zero => exact fun st => rfl
  | succ n ih =>
    intro st
    simp only [mergeGo]
    split
    · rfl
    · exact ih _

/-- If `Merge` reports a clean directory it did not change the state. -/
theorem mergeGo_false_unchanged (k : K) (fuel : Nat) :
    ∀ st : EHT K V, (mergeGo sz hashFn k fuel st false).2.1 = false →
      (mergeGo sz hashFn k fuel st false).1 = st := by
  induction fuel with
  | zero => exact fun st _ => rfl
  | succ n ih =>
    intro st h
    simp only [mergeGo] at h ⊢
    split
    · rfl
    · rename_i hc
      rw [if_neg hc] at h
      exact absurd ((mergeGo_dirty_true k n _).symm.trans h) (by exact fun hcon => Bool.noConfusion hcon)

/-- The loop body of `Merge` unpins every page it fetched exactly once. -/
theorem mergeGo_pin (k : K) (fuel : Nat) :
    ∀ (st : EHT K V) (dirty : Bool), pinBalanced (mergeGo sz hashFn k fuel st dirty).2.2 := by
  induction fuel with
  | zero => exact fun st dirty => pinBalanced_nil
  | succ n ih =>
    intro st dirty
    simp only [mergeGo]
    split
    · exact pinBalanced_pair _ _ _ _
    · refine pinBalanced_append ?_ (ih _ true)
      refine pinBalanced_merge_prefix _ _ _ _ _ _ ?_
      by_cases hsw : bucketIsEmpty sz
          (st.pages (st.dir.getBucketPageId (keyToDirectoryIndex hashFn k st.dir))) = true
      · exact Or.inr ⟨if_pos hsw, if_pos hsw⟩
      · exact Or.inl ⟨if_neg hsw, if_neg hsw⟩

/-- `Insert` and `SplitInsert` unpin every page they obtained exactly once,
and every page they mutated received an unpin with `is_dirty = true` (joint
fuel induction). -/
theorem insert_split_pin (fuel : Nat) :
    (∀ (st : EHT K V) (k : K) (v : V),
      pinBalanced (ehtInsert sz cmp maxDepth hashFn fuel st k v).evs ∧
      ∀ pid, mutatesPage st (ehtInsert sz cmp maxDepth hashFn fuel st k v).st pid →
        BPEvent.unpinPage pid true ∈ (ehtInsert sz cmp maxDepth hashFn fuel st k v).evs) ∧
    (∀ (st : EHT K V) (k : K) (v : V),
      pinBalanced (ehtSplitInsert sz cmp maxDepth hashFn fuel st k v).evs ∧
      ∀ pid, mutatesPage st (ehtSplitInsert sz cmp maxDepth hashFn fuel st k v).st pid →
        BPEvent.unpinPage pid true ∈ (ehtSplitInsert sz cmp maxDepth hashFn fuel st k v).evs) := by
  induction fuel with
  | zero =>
    exact ⟨fun st k v => ⟨pinBalanced_nil,
        fun pid h => absurd h (not_mutatesPage_self st pid)⟩,
      fun st k v => ⟨pinBalanced_nil,
        fun pid h => absurd h (not_mutatesPage_self st pid)⟩⟩
  | succ n ih =>
    refine ⟨?_, ?_⟩
    · intro st k v
      simp only [ehtInsert]
      split
      · refine ⟨pinBalanced_pair _ _ _ _, ?_⟩
        intro pid h
        unfold mutatesPage at h
        by_cases hd : pid = st.dirPageId
        · rw [if_pos hd] at h
          exact absurd rfl h
        · rw [if_neg hd] at h
          by_cases hp : pid = st.dir.getBucketPageId (keyToDirectoryIndex hashFn k st.dir)
          · simp [hp]
          · exfalso
            apply h
            rw [setPage_pages, if_neg hp]
      · refine ⟨pinBalanced_append (pinBalanced_pair _ _ _ _) (ih.2 st k v).1, ?_⟩
        intro pid h
        exact List.mem_append_right _ ((ih.2 st k v).2 pid h)
    · intro st k v
      simp only [ehtSplitInsert]
      split
      · exact ⟨pinBalanced_pair _ _ _ _,
          fun pid h => absurd h (not_mutatesPage_self st pid)⟩
      · split
        · exact ⟨pinBalanced_pair _ _ _ _,
            fun pid h => absurd h (not_mutatesPage_self st pid)⟩
        · split
          · exact ⟨pinBalanced_pair _ _ _ _,
              fun pid h => absurd h (not_mutatesPage_self st pid)⟩
          · split
            · split
              · refine ⟨pinBalanced_append (pinBalanced_new_triple _ _ _ _ _ _)
                  (ih.1 _ k v).1, ?_⟩
                intro pid h
                by_cases hd : pid = st.dirPageId
                · refine List.mem_append_left _ ?_
                  simp [hd]
                · unfold mutatesPage at h
                  rw [if_neg hd] at h
                  by_cases hnew : pid = st.nextPageId
                  · refine List.mem_append_left _ ?_
                    simp [ehtNewPage, hnew]
                  · by_cases hold : pid = st.dir.getBucketPageId
                        (keyToDirectoryIndex hashFn k st.dir)
                    · refine List.mem_append_left _ ?_
                      simp [hold]
                    · refine List.mem_append_right _ ?_
                      refine (ih.1 _ k v).2 pid ?_
                      unfold mutatesPage
                      split
                      · rename_i hcon
                        exact absurd hcon hd
                      · intro hcon2
                        apply h
                        rw [← hcon2]
                        exact split_pages_eq st _ _ _ _ pid hnew hold
              · refine ⟨pinBalanced_append (pinBalanced_pair _ _ _ _) (ih.1 _ k v).1, ?_⟩
                intro pid h
                by_cases hd : pid = st.dirPageId
                · refine List.mem_append_left _ ?_
                  simp [hd]
                · refine List.mem_append_right _ ?_
                  refine (ih.1 _ k v).2 pid ?_
                  unfold mutatesPage at h ⊢
                  rw [if_neg hd] at h
                  split
                  · rename_i hcon
                    exact absurd hcon hd
                  · exact h
            · split
              · refine ⟨pinBalanced_append (pinBalanced_new_triple _ _ _ _ _ _)
                  (ih.1 _ k v).1, ?_⟩
                intro pid h
                by_cases hd : pid = st.dirPageId
                · refine List.mem_append_left _ ?_
                  simp [hd]
                · unfold mutatesPage at h
                  rw [if_neg hd] at h
                  by_cases hnew : pid = st.nextPageId
                  · refine List.mem_append_left _ ?_
                    simp [ehtNewPage, hnew]
                  · by_cases hold : pid = st.dir.getBucketPageId
                        (keyToDirectoryIndex hashFn k st.dir)
                    · refine List.mem_append_left _ ?_
                      simp [hold]
                    · refine List.mem_append_right _ ?_
                      refine (ih.1 _ k v).2 pid ?_
                      unfold mutatesPage
                      split
                      · rename_i hcon
                        exact absurd hcon hd
                      · intro hcon2
                        apply h
                        rw [← hcon2]
                        exact split_pages_eq st _ _ _ _ pid hnew hold
              · refine ⟨pinBalanced_append (pinBalanced_pair _ _ _ _) (ih.1 _ k v).1, ?_⟩
                intro pid h
                by_cases hd : pid = st.dirPageId
                · refine List.mem_append_left _ ?_
                  simp [hd]
                · refine List.mem_append_right _ ?_
                  refine (ih.1 _ k v).2 pid ?_
                  unfold mutatesPage at h ⊢
                  rw [if_neg hd] at h
                  split
                  · rename_i hcon
                    exact absurd hcon hd
                  · exact h

/-- `Remove` unpins every page it obtained exactly once, and every page it
mutated received an unpin with `is_dirty = true`. -/
theorem remove_pin (fuel : Nat) (st : EHT K V) (k : K) (v : V) :
    pinBalanced (ehtRemove sz cmp hashFn fuel st k v).evs ∧
    ∀ pid, mutatesPage st (ehtRemove sz cmp hashFn fuel st k v).st pid →
      BPEvent.unpinPage pid true ∈ (ehtRemove sz cmp hashFn fuel st k v).evs := by
  simp only [ehtRemove]
  split
  · rename_i hfail
    refine ⟨pinBalanced_pair _ _ _ _, ?_⟩
    intro pid h
    exfalso
    unfold mutatesPage at h
    by_cases hd : pid = st.dirPageId
    · rw [if_pos hd] at h
      exact h rfl
    · rw [if_neg hd] at h
      apply h
      rw [setPage_pages]
      by_cases hp : pid = st.dir.getBucketPageId (keyToDirectoryIndex hashFn k st.dir)
      · rw [if_pos hp, bucketRemove_false_eq hfail, hp]
      · rw [if_neg hp]
  · simp only [ehtMerge]
    constructor
    · exact pinBalanced_append (pinBalanced_pair _ _ _ _)
        (pinBalanced_wrap _ _ _ (mergeGo_pin k fuel _ false))
    · intro pid h
      by_cases hd : pid = st.dirPageId
      · refine List.mem_append_left _ ?_
        simp [hd]
      · by_cases hp : pid = st.dir.getBucketPageId (keyToDirectoryIndex hashFn k st.dir)
        · refine List.mem_append_left _ ?_
          simp [hp]
        · exfalso
          unfold mutatesPage at h
          rw [if_neg hd] at h
          apply h
          rw [congrFun (mergeGo_frame k fuel _ false).1 pid, setPage_pages, if_neg hp]

/-- `Merge` unpins every page it obtained exactly once and flags the
directory dirty whenever it changed it. -/
theorem merge_pin (fuel : Nat) (st : EHT K V) (k : K) :
    pinBalanced (ehtMerge sz hashFn fuel st k).2 ∧
    ∀ pid, mutatesPage st (ehtMerge sz hashFn fuel st k).1 pid →
      BPEvent.unpinPage pid true ∈ (ehtMerge sz hashFn fuel st k).2 := by
  simp only [ehtMerge]
  constructor
  · exact pinBalanced_wrap _ _ _ (mergeGo_pin k fuel st false)
  · intro pid h
    by_cases hd : pid = st.dirPageId
    · have hchange : st.dir ≠ (mergeGo sz hashFn k fuel st false).1.dir := by
        unfold mutatesPage at h
        rw [if_pos hd] at h
        exact h
      have hr : (mergeGo sz hashFn k fuel st false).2.1 = true := by
        rcases hx : (mergeGo sz hashFn k fuel st false).2.1 with _ | _
        · exact absurd (congrArg EHT.dir (mergeGo_false_unchanged k fuel st hx)).symm hchange
        · rfl
      rw [hd, hr]
      simp
    · exfalso
      unfold mutatesPage at h
      rw [if_neg hd] at h
      exact h (congrFun (mergeGo_frame k fuel st false).1 pid).symm

end InvLemmas

/-! ## Claim theorems: directory update loops and SplitInsert paths -/

/-- C3: when a split is performed on a full bucket at directory index
`bucket_idx` with local depth `ld` (the directory-update loop of
SplitInsert, lines 187-198, which runs when `ld < global_depth` after any
growth), every live directory index that agrees with `bucket_idx` on the low
`ld` bits has its local depth incremented by one and is repointed: to the old
bucket page if bit `ld` (0-based) of the index is 0, to the newly allocated
page if that bit is 1; every other slot's page id and local depth, and the
global depth, are unchanged. -/
theorem c3_split_loop_effect (d : Directory) (bucketId oldPid newPid ld : Nat)
    (hld : d.getLocalDepth bucketId = ld) (hlt : ld < d.globalDepth) :
    (∀ j < 2 ^ d.globalDepth,
      j &&& ((1 <<< ld) - 1) = bucketId &&& ((1 <<< ld) - 1) →
      (splitLoop ld (bucketId &&& ((1 <<< ld) - 1)) oldPid newPid
          (2 ^ (d.globalDepth - ld)) d).localDepths j = d.localDepths j + 1 ∧
      (splitLoop ld (bucketId &&& ((1 <<< ld) - 1)) oldPid newPid
          (2 ^ (d.globalDepth - ld)) d).bucketPageIds j
        = (if j.testBit ld = true then newPid else oldPid)) ∧
    (∀ j, ¬ (j < 2 ^ d.globalDepth ∧
        j &&& ((1 <<< ld) - 1) = bucketId &&& ((1 <<< ld) - 1)) →
      (splitLoop ld (bucketId &&& ((1 <<< ld) - 1)) oldPid newPid
          (2 ^ (d.globalDepth - ld)) d).localDepths j = d.localDepths j ∧
      (splitLoop ld (bucketId &&& ((1 <<< ld) - 1)) oldPid newPid
          (2 ^ (d.globalDepth - ld)) d).bucketPageIds j = d.bucketPageIds j) ∧
    (splitLoop ld (bucketId &&& ((1 <<< ld) - 1)) oldPid newPid
        (2 ^ (d.globalDepth - ld)) d).globalDepth = d.globalDepth := by
  have hlow : bucketId &&& ((1 <<< ld) - 1) < 2 ^ ld := by
    rw [one_shiftLeft_eq, mask_eq_mod]
    exact Nat.mod_lt _ (Nat.two_pow_pos ld)
  have hmaskj : ∀ j : Nat, j &&& ((1 <<< ld) - 1) = j % 2 ^ ld := by
    intro j
    rw [one_shiftLeft_eq, mask_eq_mod]
  refine ⟨?_, ?_, splitLoop_globalDepth _ _ _ _ _ _⟩
  · intro j hj hagree
    rw [hmaskj j] at hagree
    have hfam : j % 2 ^ ld = bucketId &&& ((1 <<< ld) - 1) ∧
        j / 2 ^ ld < 2 ^ (d.globalDepth - ld) :=
      (family_iff (Nat.le_of_lt hlt)).mpr ⟨hj, hagree⟩
    constructor
    · rw [splitLoop_localDepths _ _ _ _ hlow, if_pos hfam]
    · rw [splitLoop_bucketPageIds _ _ _ _ hlow, if_pos hfam]
      rcases hbit : j.testBit ld with _ | _
      · have hodd : ¬ (j / 2 ^ ld) % 2 = 1 := by
          intro hone
          rw [(testBit_iff_div_odd j ld).mpr hone] at hbit
          exact Bool.noConfusion hbit
        rw [if_pos (by omega)]
        simp
      · have hone : (j / 2 ^ ld) % 2 = 1 := (testBit_iff_div_odd j ld).mp hbit
        rw [if_neg (by omega)]
        simp
  · intro j hout
    rw [hmaskj j] at hout
    have hnotfam : ¬ (j % 2 ^ ld = bucketId &&& ((1 <<< ld) - 1) ∧
        j / 2 ^ ld < 2 ^ (d.globalDepth - ld)) := by
      intro hfam
      exact hout ((family_iff (Nat.le_of_lt hlt)).mp hfam)
    constructor
    · rw [splitLoop_localDepths _ _ _ _ hlow, if_neg hnotfam]
    · rw [splitLoop_bucketPageIds _ _ _ _ hlow, if_neg hnotfam]

/-- Witness for C3: in a two-slot directory at global depth 1 with both local
depths 0, splitting index 0 at `ld = 0` gives slot 1 the new page and local
depth 1. -/
theorem c3_split_loop_effect_witness :
    (splitLoop 0 (0 &&& ((1 <<< 0) - 1)) 0 2 (2 ^ (1 - 0))
        (Directory.mk 1 (fun _ => 0) (fun _ => 0))).localDepths 1 = 1 ∧
    (splitLoop 0 (0 &&& ((1 <<< 0) - 1)) 0 2 (2 ^ (1 - 0))
        (Directory.mk 1 (fun _ => 0) (fun _ => 0))).bucketPageIds 1 = 2 := by
  have h := (c3_split_loop_effect (Directory.mk 1 (fun _ => 0) (fun _ => 0))
    0 0 2 0 rfl (by decide)).1 1 (by decide) (by decide)
  refine ⟨h.1, ?_⟩
  rw [h.2]
  decide

/-- C5: if SplitInsert finds the directory at capacity
(`Size() >= DIRECTORY_ARRAY_SIZE`, i.e. `2^MAX_DEPTH <= 2^global_depth`,
which under `global_depth <= MAX_DEPTH` is exactly `global_depth = MAX_DEPTH`)
while the routed bucket is still full and the pair is not a duplicate, it
returns false and leaves the whole state — in particular the directory page —
unchanged, so the directory invariants continue to hold. -/
theorem c5_directory_at_capacity {K V : Type} [DecidableEq V] [Inhabited K] [Inhabited V]
    (sz maxDepth fuel : Nat) (cmp : K → K → Int) (hashFn : K → Nat)
    (st : EHT K V) (k : K) (v : V)
    (hnodup : v ∉ (bucketGetValue sz cmp (st.pages (keyToPageId hashFn k st.dir)) k).1)
    (hfull : bucketIsFull sz (st.pages (keyToPageId hashFn k st.dir)) = true)
    (hcap : 2 ^ maxDepth ≤ st.dir.size) :
    (ehtSplitInsert sz cmp maxDepth hashFn (fuel + 1) st k v).ok = false ∧
    (ehtSplitInsert sz cmp maxDepth hashFn (fuel + 1) st k v).st = st ∧
    (st.dir.globalDepth ≤ maxDepth → st.dir.globalDepth = maxDepth) ∧
    (dirI3 st.dir → dirI3 (ehtSplitInsert sz cmp maxDepth hashFn (fuel + 1) st k v).st.dir) ∧
    (dirLdLe st.dir → dirLdLe (ehtSplitInsert sz cmp maxDepth hashFn (fuel + 1) st k v).st.dir) := by
  unfold keyToPageId at hnodup
  have hstep : ehtSplitInsert sz cmp maxDepth hashFn (fuel + 1) st k v =
      ⟨st, false,
        [.fetchPage st.dirPageId,
          .fetchPage (st.dir.getBucketPageId (keyToDirectoryIndex hashFn k st.dir)),
          .unpinPage st.dirPageId false,
          .unpinPage (st.dir.getBucketPageId (keyToDirectoryIndex hashFn k st.dir)) false]⟩ := by
    simp only [ehtSplitInsert]
    rw [if_neg hnodup, if_pos hcap]
  rw [hstep]
  have hgd : st.dir.globalDepth ≤ maxDepth → st.dir.globalDepth = maxDepth := by
    intro hle
    have hup : maxDepth ≤ st.dir.globalDepth := by
      have h2 : (2 : Nat) ^ maxDepth ≤ 2 ^ st.dir.globalDepth := hcap
      exact (Nat.pow_le_pow_iff_right (by omega)).mp h2
    omega
  exact ⟨rfl, rfl, hgd, fun h => h, fun h => h⟩

/-- Witness for C5: a one-slot directory with `MAX_DEPTH = 0` (so the
directory is at capacity) over a full bucket: SplitInsert of the absent pair
(5, 7) fails and the state is untouched. -/
theorem c5_directory_at_capacity_witness :
    (ehtSplitInsert 2 natCmp 0 (fun n : Nat => n) 1
        (EHT.mk (Directory.dirInit 0) (fun _ => wbFull) 2 1) 5 7).ok = false ∧
    (ehtSplitInsert 2 natCmp 0 (fun n : Nat => n) 1
        (EHT.mk (Directory.dirInit 0) (fun _ => wbFull) 2 1) 5 7).st
      = EHT.mk (Directory.dirInit 0) (fun _ => wbFull) 2 1 := by
  have h := c5_directory_at_capacity 2 0 0 natCmp (fun n : Nat => n)
    (EHT.mk (Directory.dirInit 0) (fun _ => wbFull) 2 1) 5 7
    (by decide) (by decide) (by decide)
  exact ⟨h.1, h.2.1⟩

/-- C4 (code bug): contrary to the spec's "if the bucket is no longer full,
retry Insert without splitting", `SplitInsert` never re-checks fullness.  Run
on the freshly initialised table (whose routed bucket is empty, hence not
full) with an absent pair, it performs a split anyway: the global depth grows
from 0 to 1 (and the insert then succeeds), instead of leaving the directory
unchanged. -/
theorem c4_splitinsert_splits_nonfull_bucket :
    bucketIsFull 2 ((initEHT : EHT Nat Nat).pages
        (keyToPageId (fun n : Nat => n) 1 (initEHT : EHT Nat Nat).dir)) = false ∧
    (initEHT : EHT Nat Nat).dir.globalDepth = 0 ∧
    (ehtSplitInsert 2 natCmp 2 (fun n : Nat => n) 3 (initEHT : EHT Nat Nat) 1 9).st.dir.globalDepth
      = 1 ∧
    (ehtSplitInsert 2 natCmp 2 (fun n : Nat => n) 3 (initEHT : EHT Nat Nat) 1 9).ok = true := by
  refine ⟨by decide, rfl, ?_, ?_⟩ <;> decide

/-- C6: Bucket-page `Insert(key, value, cmp)` returns false if some readable
slot already holds an equal (key, value) pair (equality being the
`cmp(a,b) == cmp(b,a)` test the code uses, plus value equality); otherwise it
returns false if no non-readable slot exists (bucket full); otherwise it
writes (key, value) into the first non-readable slot (lowest index), sets
that slot's readable and occupied bits, and returns true. -/
theorem c6_bucket_insert {K V : Type} [DecidableEq V] (sz : Nat) (cmp : K → K → Int)
    (b : Bucket K V) (k : K) (v : V) :
    ((∃ i < sz, b.readable i = true ∧ kMatch cmp (b.keyAt i) k ∧ v = b.valueAt i) →
      bucketInsert sz cmp b k v = (b, false)) ∧
    ((¬ ∃ i < sz, b.readable i = true ∧ kMatch cmp (b.keyAt i) k ∧ v = b.valueAt i) →
      (∀ i < sz, b.readable i = true) →
      bucketInsert sz cmp b k v = (b, false)) ∧
    ((¬ ∃ i < sz, b.readable i = true ∧ kMatch cmp (b.keyAt i) k ∧ v = b.valueAt i) →
      ∀ i < sz, b.readable i = false → (∀ j < i, b.readable j = true) →
      bucketInsert sz cmp b k v = (((b.setKV i k v).setReadable i).setOccupied i, true)) :=
  ⟨fun h => bucketInsert_dup h,
   fun hnodup hfull => bucketInsert_full hnodup hfull,
   fun hnodup i hi hfree hfirst => bucketInsert_free hnodup hi hfree hfirst⟩

/-- Witness for C6: inserting (5, 7) into the empty two-slot bucket writes
slot 0 and returns true. -/
theorem c6_bucket_insert_witness :
    bucketInsert 2 natCmp wbEmpty 5 7
      = (((wbEmpty.setKV 0 5 7).setReadable 0).setOccupied 0, true) :=
  (c6_bucket_insert 2 natCmp wbEmpty 5 7).2.2 (by decide) 0 (by decide) rfl
    (fun j hj => absurd hj (Nat.not_lt_zero j))

/-- C7: Bucket-page `Remove(key, value, cmp)` clears the readable bit of the
first (lowest-index) readable slot whose key and value both match and returns
true; it never clears any occupied bit; if no readable slot matches both, it
returns false. -/
theorem c7_bucket_remove {K V : Type} [DecidableEq V] (sz : Nat) (cmp : K → K → Int)
    (b : Bucket K V) (k : K) (v : V) :
    ((bucketRemove sz cmp b k v).1.occupied = b.occupied) ∧
    (∀ i < sz, b.readable i = true → kMatch cmp (b.keyAt i) k → v = b.valueAt i →
      (∀ j < i, ¬ (b.readable j = true ∧ kMatch cmp (b.keyAt j) k ∧ v = b.valueAt j)) →
      bucketRemove sz cmp b k v = (b.removeAt i, true) ∧
      (b.removeAt i).readable i = false ∧
      (∀ j, j ≠ i → (b.removeAt i).readable j = b.readable j)) ∧
    ((∀ i < sz, ¬ (b.readable i = true ∧ kMatch cmp (b.keyAt i) k ∧ v = b.valueAt i)) →
      bucketRemove sz cmp b k v = (b, false)) := by
  refine ⟨bucketRemove_occupied, ?_, fun h => bucketRemove_none h⟩
  intro i hi hr hm hv hfirst
  refine ⟨bucketRemove_first hi hr hm hv hfirst, ?_, ?_⟩
  · simp [Bucket.removeAt]
  · intro j hj
    simp [Bucket.removeAt, hj]

/-- Witness for C7: removing (5, 7) from the bucket holding it in slot 0
clears that slot's readable bit and returns true. -/
theorem c7_bucket_remove_witness :
    bucketRemove 2 natCmp wbOne 5 7 = (wbOne.removeAt 0, true) ∧
    (bucketRemove 2 natCmp wbOne 5 7).1.occupied = wbOne.occupied :=
  ⟨((c7_bucket_remove 2 natCmp wbOne 5 7).2.1 0 (by decide) (by decide) (by decide)
      (by decide) (fun j hj => absurd hj (Nat.not_lt_zero j))).1,
   (c7_bucket_remove 2 natCmp wbOne 5 7).1⟩

/-- C10: when bucket-page `Insert` or `Remove` returns false, the bucket page
is completely unchanged (failure is atomic): the resulting page equals the
original, so every slot's key and value and both bitmaps are unchanged. -/
theorem c10_bucket_failure_atomic {K V : Type} [DecidableEq V] (sz : Nat) (cmp : K → K → Int)
    (b : Bucket K V) (k : K) (v : V) :
    ((bucketInsert sz cmp b k v).2 = false → (bucketInsert sz cmp b k v).1 = b) ∧
    ((bucketRemove sz cmp b k v).2 = false → (bucketRemove sz cmp b k v).1 = b) :=
  ⟨bucketInsert_false_eq, bucketRemove_false_eq⟩

/-- Witness for C10: a duplicate insert and an unmatched remove both leave
their buckets untouched. -/
theorem c10_bucket_failure_atomic_witness :
    (bucketInsert 2 natCmp wbOne 5 7).1 = wbOne ∧
    (bucketRemove 2 natCmp wbEmpty 5 7).1 = wbEmpty :=
  ⟨(c10_bucket_failure_atomic 2 natCmp wbOne 5 7).1 (by decide),
   (c10_bucket_failure_atomic 2 natCmp wbEmpty 5 7).2 (by decide)⟩

/-! ## Claim theorem: LRU replacer -/

/-- C9: the replacer implements LRU over unpin events.  `Victim` returns
`none` exactly when no candidates exist, and otherwise removes and yields the
tail of the candidate list — the least recently unpinned frame.  Concretely,
from an empty replacer of capacity 3: Unpin(1), Unpin(2), Unpin(3), then
successive Victims yield 1, 2, 3, then fail; after Unpin(4) followed by
Pin(4), Victim fails. -/
theorem c9_lru_replacer :
    (∀ r : LRU,
      (lruVictim r).2 = r.lruList.getLast? ∧
      (lruVictim r).1.lruList = r.lruList.dropLast ∧
      ((lruVictim r).2 = none ↔ r.lruList = [])) ∧
    ((lruVictim (lruUnpin (lruUnpin (lruUnpin (lruInit 3) 1) 2) 3)).2 = some 1 ∧
      (lruVictim (lruVictim (lruUnpin (lruUnpin (lruUnpin (lruInit 3) 1) 2) 3)).1).2 = some 2 ∧
      (lruVictim (lruVictim (lruVictim
        (lruUnpin (lruUnpin (lruUnpin (lruInit 3) 1) 2) 3)).1).1).2 = some 3 ∧
      (lruVictim (lruVictim (lruVictim (lruVictim
        (lruUnpin (lruUnpin (lruUnpin (lruInit 3) 1) 2) 3)).1).1).1).2 = none ∧
      (lruVictim (lruPin (lruUnpin (lruVictim (lruVictim (lruVictim
        (lruUnpin (lruUnpin (lruUnpin (lruInit 3) 1) 2) 3)).1).1).1 4) 4)).2 = none) := by
  constructor
  · intro r
    refine ⟨?_, ?_, ?_⟩
    · rcases h : r.lruList.getLast? with _ | f <;> simp [lruVictim, h]
    · rcases h : r.lruList.getLast? with _ | f
      · have he : r.lruList = [] := List.getLast?_eq_none_iff.mp h
        simp [lruVictim, h, he]
      · simp [lruVictim, h]
    · rcases h : r.lruList.getLast? with _ | f
      · simp [lruVictim, h, List.getLast?_eq_none_iff.mp h]
      · have hne : r.lruList ≠ [] := by
          intro he
          rw [he] at h
          simp at h
        simp [lruVictim, h, hne]
  · decide

/-- C2: the directory invariant I3 is preserved by every table operation: in
any state reachable from the freshly initialised table by a sequence of
`Insert` and `Remove` calls, every slot `j` agreeing with a live slot `i` on
the low `local_depths[i]` bits has the same bucket page id and the same local
depth as slot `i`. -/
theorem c2_i3_invariant {K V : Type} [DecidableEq V] [Inhabited K] [Inhabited V]
    (sz : Nat) (cmp : K → K → Int) (maxDepth : Nat) (hashFn : K → Nat)
    (st : EHT K V) (h : Reach sz cmp maxDepth hashFn st) :
    dirI3 st.dir :=
  (reach_inv h).i3

/-- Witness for C2: I3 holds after inserting (5, 7) into the freshly
initialised two-slot table. -/
theorem c2_i3_invariant_witness :
    dirI3 (ehtInsert 2 natCmp 2 (fun n : Nat => n) 3 (initEHT : EHT Nat Nat) 5 7).st.dir :=
  c2_i3_invariant 2 natCmp 2 (fun n : Nat => n) _ (Reach.insert 3 5 7 Reach.init)

/-- C1: on any reachable state, over a comparator for which the code's
equality test `cmp(a,b) == cmp(b,a)` coincides with key equality: if
`Insert(k, v)` returns true then a subsequent `GetValue(k)` returns true
with a result list containing `v`; and if after that `Remove(k, v)` returns
true, a subsequent `GetValue(k)` yields a result list not containing `v`. -/
theorem c1_round_trip {K V : Type} [DecidableEq V] [Inhabited K] [Inhabited V]
    (sz : Nat) (cmp : K → K → Int) (maxDepth : Nat) (hashFn : K → Nat)
    (hcmp : ∀ a b : K, cmp a b = cmp b a ↔ a = b)
    (st : EHT K V) (hreach : Reach sz cmp maxDepth hashFn st)
    (fuel fuel2 : Nat) (k : K) (v : V)
    (hins : (ehtInsert sz cmp maxDepth hashFn fuel st k v).ok = true) :
    (ehtGetValue sz cmp hashFn (ehtInsert sz cmp maxDepth hashFn fuel st k v).st k).ok = true ∧
    v ∈ (ehtGetValue sz cmp hashFn (ehtInsert sz cmp maxDepth hashFn fuel st k v).st k).res ∧
    ((ehtRemove sz cmp hashFn fuel2
        (ehtInsert sz cmp maxDepth hashFn fuel st k v).st k v).ok = true →
      v ∉ (ehtGetValue sz cmp hashFn
        (ehtRemove sz cmp hashFn fuel2
          (ehtInsert sz cmp maxDepth hashFn fuel st k v).st k v).st k).res) := by
  obtain ⟨s, hs, hrs, hks, hvs⟩ := (insert_ok_contains fuel).1 st k v hins
  have hmem : v ∈ (bucketGetValue sz cmp
      ((ehtInsert sz cmp maxDepth hashFn fuel st k v).st.pages
        (keyToPageId hashFn k (ehtInsert sz cmp maxDepth hashFn fuel st k v).st.dir)) k).1 :=
    mem_bucketGetValue.mpr ⟨s, hs, hrs, by rw [hks]; exact kMatch_refl cmp k, hvs⟩
  refine ⟨bucketGetValue_flag_of_mem hmem, hmem, ?_⟩
  intro hrem
  have hInvI :=
    (@insert_split_preserve_inv K V _ _ _ sz cmp maxDepth hashFn fuel).1 st k v
      (reach_inv hreach)
  exact remove_get_not_mem fuel2 _ k v hInvI hcmp hrem

/-- Witness for C1: on the freshly initialised two-slot table, insert (5, 7)
(succeeds), read it back, remove it, and observe it gone. -/
theorem c1_round_trip_witness :
    (ehtGetValue 2 natCmp (fun n : Nat => n)
      (ehtInsert 2 natCmp 2 (fun n : Nat => n) 3 (initEHT : EHT Nat Nat) 5 7).st 5).ok = true ∧
    7 ∈ (ehtGetValue 2 natCmp (fun n : Nat => n)
      (ehtInsert 2 natCmp 2 (fun n : Nat => n) 3 (initEHT : EHT Nat Nat) 5 7).st 5).res ∧
    ((ehtRemove 2 natCmp (fun n : Nat => n) 2
        (ehtInsert 2 natCmp 2 (fun n : Nat => n) 3 (initEHT : EHT Nat Nat) 5 7).st 5 7).ok
          = true →
      7 ∉ (ehtGetValue 2 natCmp (fun n : Nat => n)
        (ehtRemove 2 natCmp (fun n : Nat => n) 2
          (ehtInsert 2 natCmp 2 (fun n : Nat => n) 3 (initEHT : EHT Nat Nat) 5 7).st 5 7).st
        5).res) :=
  c1_round_trip 2 natCmp 2 (fun n : Nat => n) natCmp_lawful
    (initEHT : EHT Nat Nat) Reach.init 3 2 5 7 (by decide)

/-- C8 (amended): every page a public operation (GetValue, Insert,
SplitInsert, Remove, Merge) obtains from the buffer pool via FetchPage or
NewPage is unpinned exactly once before the operation returns, and every
page whose buffer the operation mutated receives an unpin with
`is_dirty = true`.  (The original claim's "is_dirty = true iff mutated" is
refuted by the counterexample: a failed Remove passes true for the
unmutated bucket page.) -/
theorem c8_pin_discipline {K V : Type} [DecidableEq V] [Inhabited K] [Inhabited V]
    (sz : Nat) (cmp : K → K → Int) (maxDepth : Nat) (hashFn : K → Nat)
    (fuel : Nat) (st : EHT K V) (k : K) (v : V) :
    (pinBalanced (ehtGetValue sz cmp hashFn st k).evs ∧
      dirtyIffMutated st st (ehtGetValue sz cmp hashFn st k).evs) ∧
    (pinBalanced (ehtInsert sz cmp maxDepth hashFn fuel st k v).evs ∧
      ∀ pid, mutatesPage st (ehtInsert sz cmp maxDepth hashFn fuel st k v).st pid →
        BPEvent.unpinPage pid true ∈ (ehtInsert sz cmp maxDepth hashFn fuel st k v).evs) ∧
    (pinBalanced (ehtSplitInsert sz cmp maxDepth hashFn fuel st k v).evs ∧
      ∀ pid, mutatesPage st (ehtSplitInsert sz cmp maxDepth hashFn fuel st k v).st pid →
        BPEvent.unpinPage pid true ∈ (ehtSplitInsert sz cmp maxDepth hashFn fuel st k v).evs) ∧
    (pinBalanced (ehtRemove sz cmp hashFn fuel st k v).evs ∧
      ∀ pid, mutatesPage st (ehtRemove sz cmp hashFn fuel st k v).st pid →
        BPEvent.unpinPage pid true ∈ (ehtRemove sz cmp hashFn fuel st k v).evs) ∧
    (pinBalanced (ehtMerge sz hashFn fuel st k).2 ∧
      ∀ pid, mutatesPage st (ehtMerge sz hashFn fuel st k).1 pid →
        BPEvent.unpinPage pid true ∈ (ehtMerge sz hashFn fuel st k).2) := by
  refine ⟨⟨pinBalanced_pair _ _ _ _, ?_⟩, (insert_split_pin fuel).1 st k v,
    (insert_split_pin fuel).2 st k v, remove_pin fuel st k v, merge_pin fuel st k⟩
  intro pid d hmem
  constructor
  · intro hdt
    subst hdt
    exfalso
    simp [ehtGetValue] at hmem
  · intro hmut
    exact absurd hmut (not_mutatesPage_self st pid)

/-- C8 counterexample: the claimed "is_dirty = true iff the operation
mutated that page's buffer" is false.  A `Remove` of an absent pair on the
freshly initialised table mutates no page, yet unpins the (unchanged) bucket
page 0 with `is_dirty = true` (src line 239). -/
theorem c8_dirty_iff_mutated_fails :
    ¬ dirtyIffMutated (initEHT : EHT Nat Nat)
      (ehtRemove 2 natCmp (fun n : Nat => n) 1 initEHT 5 7).st
      (ehtRemove 2 natCmp (fun n : Nat => n) 1 initEHT 5 7).evs := by
  intro h
  have hmem : BPEvent.unpinPage 0 true
      ∈ (ehtRemove 2 natCmp (fun n : Nat => n) 1 (initEHT : EHT Nat Nat) 5 7).evs := by
    decide
  have hmut := (h 0 true hmem).mp rfl
  unfold mutatesPage at hmut
  rw [if_neg (by decide : ¬ ((0 : Nat) = (initEHT : EHT Nat Nat).dirPageId))] at hmut
  exact hmut rfl

end ExtHash
